import Mathlib

/-!
# BerryPay payment processor: a shallow embedding

This file embeds the charge-processing core of the `berrypay-cli` repository
(`src/processor.ts`, with the sub-account derivation contract of
`src/wallet.ts`) into Lean and proves the specification's claims about it.

External collaborators (the ledger RPC node, the WebSocket event monitor and
the webhook HTTP endpoint) are modelled as explicit environments: every
processor operation takes the collaborator responses it would observe as an
argument, so each operation is a pure function on the processor state.
-/

namespace BerryPay

/-! ## Association-list maps

JavaScript `Map` objects keyed by strings, with `Map.set` updating an
existing key in place (keeping its position) and appending a fresh key,
`Map.get` returning the entry if present, and `Map.delete` removing it. -/

def alGet (k : String) : List (String × β) → Option β
  | [] => none
  | (k', v) :: rest => if k' = k then some v else alGet k rest

def alSet (k : String) (v : β) : List (String × β) → List (String × β)
  | [] => [(k, v)]
  | (k', v') :: rest => if k' = k then (k, v) :: rest else (k', v') :: alSet k v rest

def alDel (k : String) : List (String × β) → List (String × β)
  | [] => []
  | (k', v') :: rest => if k' = k then alDel k rest else (k', v') :: alDel k rest

/-! ## Decimal digit strings

The processor stores raw currency amounts as decimal strings (`BigInt` in and
`toString` out) and serializes timestamps through a canonical textual format
(`Date.toISOString` / `new Date`), which is exact at millisecond precision.
Both are modelled as the canonical decimal rendering of a `Nat`, built from
an executable digit encoder with a proven decoder. -/

def digitsRev : Nat → Nat → List Nat
  | _, 0 => []
  | 0, _ + 1 => []
  | fuel + 1, n + 1 => (n + 1) % 10 :: digitsRev fuel ((n + 1) / 10)

def decodeRev : List Nat → Nat
  | [] => 0
  | d :: ds => d + 10 * decodeRev ds

def decNat (l : List Nat) : Nat := l.foldl (fun a d => 10 * a + d) 0

/-- Decimal digits of `n`, most significant first; `[0]` for zero. -/
def natDigits (n : Nat) : List Nat :=
  if n = 0 then [0] else (digitsRev n n).reverse

def digitChar (d : Nat) : Char := Char.ofNat (48 + d)

def charDigit (c : Char) : Nat := c.toNat - 48

/-- Decimal rendering of a natural number, as a character list. -/
def digitString (n : Nat) : List Char := (natDigits n).map digitChar

def natOfDigitChars (l : List Char) : Nat := decNat (l.map charDigit)

/-- Canonical textual serialization of a timestamp (epoch milliseconds).
`JSON.stringify` renders a `Date` through `Date.toISOString` and
`new Date(s)` parses it back exactly at millisecond precision; both live in
the JS runtime, outside the repository, so the textual form is modelled as
the canonical decimal rendering of the millisecond value, which carries the
same information. -/
def dateToISO (t : Nat) : String := String.mk (digitString t)

/-- Parsing a serialized timestamp back to epoch milliseconds
(`new Date(s)`, processor.ts lines 64-73). -/
def isoToDate (s : String) : Nat := natOfDigitChars s.data

/-- Models `BerryPayWallet.deriveAccount` (wallet.ts lines 60-75):
deterministic derivation of the address of a sub-account index. The
underlying key derivation is the external `nanocurrency-web` library, whose
contract (§6) is a deterministic, collision-free address per index; it is
modelled as an injective encoding of the index. -/
def deriveAccount (index : Nat) : String :=
  String.mk (['n', 'a', 'n', 'o', '_'] ++ digitString index)

/-- Models `BerryPayWallet.rawToNano` (wallet.ts lines 319-321), an external
currency-display conversion (`tools.convert RAW -> NANO`); the processor
treats its result as an opaque display string, so it is modelled as a
canonical rendering of the raw value. -/
def rawToNano (raw : Nat) : String := String.mk (digitString raw)

/-! ## Data model (processor.ts lines 9-56)

Raw amounts are exact smallest-unit integers: the source stores them as
decimal strings and computes with `BigInt`, which round-trips exactly, so
they are embedded as `Nat`. Timestamps are epoch milliseconds. The JS field
`from` is embedded as `sender` (`from` is a Lean keyword). -/

inductive ChargeStatus where
  | pending
  | part
  | completed
  | expired
  | swept
deriving DecidableEq

structure PaymentTransaction where
  hash : String
  sender : String
  amountRaw : Nat
  amountNano : String
  timestamp : Nat
deriving DecidableEq

structure Charge where
  id : String
  address : String
  accountIndex : Nat
  amountRaw : Nat
  amountNano : String
  receivedRaw : Nat
  receivedNano : String
  status : ChargeStatus
  transactions : List PaymentTransaction
  createdAt : Nat
  expiresAt : Nat
  completedAt : Option Nat := none
  sweptAt : Option Nat := none
  sweepTxHash : Option String := none
  webhookUrl : Option String := none
  webhookSent : Option Bool := none
  metadata : Option String := none
deriving DecidableEq

/-- The in-memory snapshot handed to `savePersistedState`
(processor.ts lines 52-56). -/
structure PersistedState where
  nextAccountIndex : Nat
  charges : List Charge
  updatedAt : Nat
deriving DecidableEq

/-! ## Persisted snapshot file (processor.ts lines 49-93)

The on-disk JSON with every timestamp in its serialized textual form; all
other fields round-trip verbatim through `JSON.stringify`/`JSON.parse`. -/

structure PaymentTransactionJ where
  hash : String
  sender : String
  amountRaw : Nat
  amountNano : String
  timestamp : String
deriving DecidableEq

structure ChargeJ where
  id : String
  address : String
  accountIndex : Nat
  amountRaw : Nat
  amountNano : String
  receivedRaw : Nat
  receivedNano : String
  status : ChargeStatus
  transactions : List PaymentTransactionJ
  createdAt : String
  expiresAt : String
  completedAt : Option String := none
  sweptAt : Option String := none
  sweepTxHash : Option String := none
  webhookUrl : Option String := none
  webhookSent : Option Bool := none
  metadata : Option String := none
deriving DecidableEq

structure PersistedStateJ where
  nextAccountIndex : Nat
  charges : List ChargeJ
  updatedAt : String
deriving DecidableEq

def encodeTransaction (t : PaymentTransaction) : PaymentTransactionJ :=
  { hash := t.hash, sender := t.sender, amountRaw := t.amountRaw,
    amountNano := t.amountNano, timestamp := dateToISO t.timestamp }

def encodeCharge (c : Charge) : ChargeJ :=
  { id := c.id, address := c.address, accountIndex := c.accountIndex,
    amountRaw := c.amountRaw, amountNano := c.amountNano,
    receivedRaw := c.receivedRaw, receivedNano := c.receivedNano,
    status := c.status, transactions := c.transactions.map encodeTransaction,
    createdAt := dateToISO c.createdAt, expiresAt := dateToISO c.expiresAt,
    completedAt := c.completedAt.map dateToISO,
    sweptAt := c.sweptAt.map dateToISO,
    sweepTxHash := c.sweepTxHash, webhookUrl := c.webhookUrl,
    webhookSent := c.webhookSent, metadata := c.metadata }

/-- `savePersistedState` (processor.ts lines 83-93): serialize the snapshot
to the persisted file. -/
def savePersistedState (st : PersistedState) : PersistedStateJ :=
  { nextAccountIndex := st.nextAccountIndex,
    charges := st.charges.map encodeCharge,
    updatedAt := dateToISO st.updatedAt }

def decodeTransaction (t : PaymentTransactionJ) : PaymentTransaction :=
  { hash := t.hash, sender := t.sender, amountRaw := t.amountRaw,
    amountNano := t.amountNano, timestamp := isoToDate t.timestamp }

/-- The per-charge date revival of `loadPersistedState` (processor.ts lines
64-74). The optional dates go through the JS truthiness test
`c.completedAt ? new Date(c.completedAt) : undefined`, under which an empty
string is falsy. -/
def decodeCharge (c : ChargeJ) : Charge :=
  { id := c.id, address := c.address, accountIndex := c.accountIndex,
    amountRaw := c.amountRaw, amountNano := c.amountNano,
    receivedRaw := c.receivedRaw, receivedNano := c.receivedNano,
    status := c.status, transactions := c.transactions.map decodeTransaction,
    createdAt := isoToDate c.createdAt, expiresAt := isoToDate c.expiresAt,
    completedAt := match c.completedAt with
      | none => none
      | some s => if s = "" then none else some (isoToDate s),
    sweptAt := match c.sweptAt with
      | none => none
      | some s => if s = "" then none else some (isoToDate s),
    sweepTxHash := c.sweepTxHash, webhookUrl := c.webhookUrl,
    webhookSent := c.webhookSent, metadata := c.metadata }

/-- `loadPersistedState` (processor.ts lines 58-81): `none` models a
missing or unparseable snapshot file, which yields `null`. -/
def loadPersistedState : Option PersistedStateJ → Option PersistedState
  | none => none
  | some f => some
      { nextAccountIndex := f.nextAccountIndex,
        charges := f.charges.map decodeCharge,
        updatedAt := isoToDate f.updatedAt }

/-! ## Processor state and collaborator environments

The mutable fields of `PaymentProcessor` (processor.ts lines 104-115)
together with the observable persistence side effects: `persisted` is the
last snapshot written to disk and `savePending` records a scheduled
debounced save. `monitored` is the address set registered with the external
event monitor. -/

structure PState where
  mainAccountIndex : Nat
  autoSweep : Bool
  charges : List (String × Charge)
  addressToChargeId : List (String × String)
  nextAccountIndex : Nat
  monitored : List String
  persisted : Option PersistedState
  savePending : Bool
deriving DecidableEq

/-- The subset of `ProcessorConfig` (processor.ts lines 39-47) the embedded
operations read. -/
structure ProcessorConfig where
  mainAccountIndex : Nat := 0
  autoSweep : Bool := true
  startingIndex : Nat := 1000
deriving DecidableEq

/-- The `PaymentProcessor` constructor (processor.ts lines 117-142): load
the persisted snapshot if present; rebuild both indices from every persisted
charge; otherwise start empty at the configured initial sub-account index. -/
def initProcessor (config : ProcessorConfig) (file : Option PersistedStateJ) : PState :=
  match loadPersistedState file with
  | some persisted =>
      { mainAccountIndex := config.mainAccountIndex,
        autoSweep := config.autoSweep,
        charges := persisted.charges.foldl (fun m c => alSet c.id c m) [],
        addressToChargeId :=
          persisted.charges.foldl (fun m c => alSet c.address c.id m) [],
        nextAccountIndex := persisted.nextAccountIndex,
        monitored := [],
        persisted := none,
        savePending := false }
  | none =>
      { mainAccountIndex := config.mainAccountIndex,
        autoSweep := config.autoSweep,
        charges := [],
        addressToChargeId := [],
        nextAccountIndex := config.startingIndex,
        monitored := [],
        persisted := none,
        savePending := false }

/-- The snapshot assembled by `persistState`/`persistStateNow`
(processor.ts lines 150-154 and 166-170). -/
def snapshotOf (now : Nat) (s : PState) : PersistedState :=
  { nextAccountIndex := s.nextAccountIndex,
    charges := s.charges.map (·.2),
    updatedAt := now }

/-- `persistStateNow` (processor.ts lines 161-172): cancel any scheduled
debounced save and write the snapshot immediately. -/
def persistStateNow (now : Nat) (s : PState) : PState :=
  { s with savePending := false, persisted := some (snapshotOf now s) }

/-- `persistState` (processor.ts lines 144-158): (re)schedule a debounced
save; nothing reaches disk yet. -/
def persistState (s : PState) : PState :=
  { s with savePending := true }

/-- The collaborator responses one `sweepCharge` run observes:
`receivePendingErr` is a failure thrown by `wallet.receivePending`;
`balance` is the sub-account balance reported after reconciliation
(`wallet.getBalance` swallows RPC errors and reports "0", so it never
throws); `sendErr`/`sendHash` describe `wallet.send`; `webhookOk` is the
webhook POST outcome (`none` = transport error, `some b` = HTTP response
with ok-flag `b`); `now` is the clock. -/
structure SweepEnv where
  receivePendingErr : Option String := none
  balance : Nat := 0
  sendErr : Option String := none
  sendHash : String := ""
  webhookOk : Option Bool := none
  now : Nat := 0

/-- Observable external effects of one `sweepCharge` run: the ledger sends
it issued (destination address, raw amount) and the webhook URLs it POSTed
to. -/
structure SweepLog where
  sends : List (String × Nat) := []
  webhookCalls : List String := []
deriving DecidableEq

/-- `callWebhook` (processor.ts lines 394-445): a single POST; on an ok
response set the charge's `webhookSent` flag and persist immediately; any
other response or a transport error is only reported as an event. Returns
the new state and the list of URLs POSTed. -/
def callWebhook (env : SweepEnv) (chargeId : String) (s : PState) :
    PState × List String :=
  match alGet chargeId s.charges with
  | none => (s, [])
  | some charge =>
    match charge.webhookUrl with
    | none => (s, [])
    | some url =>
      if url = "" then (s, [])
      else
        match env.webhookOk with
        | some true =>
            let charge' := { charge with webhookSent := some true }
            (persistStateNow env.now
              { s with charges := alSet chargeId charge' s.charges }, [url])
        | _ => (s, [url])

/-- The mutation block of a successful sweep (processor.ts lines 474-495):
mark the charge swept, release its address from the index and the monitor,
persist immediately, then attempt the webhook when a URL is configured and
no notification was sent yet (JS truthiness: an empty URL is falsy). -/
def sweepFinish (env : SweepEnv) (chargeId : String) (charge : Charge)
    (s : PState) : PState × List String :=
  let charge1 := { charge with
    status := ChargeStatus.swept, sweptAt := some env.now,
    sweepTxHash := some env.sendHash }
  let s1 := { s with
    charges := alSet chargeId charge1 s.charges,
    addressToChargeId := alDel charge.address s.addressToChargeId,
    monitored := s.monitored.filter (fun a => a ≠ charge.address) }
  let s2 := persistStateNow env.now s1
  if charge1.webhookUrl.getD "" ≠ "" ∧ charge1.webhookSent.getD false = false then
    callWebhook env chargeId s2
  else (s2, [])

/-- `sweepCharge` (processor.ts lines 447-502). Fails for an unknown id;
returns `none` ("nothing to sweep") when already swept or when the
post-reconciliation balance is zero; otherwise sends the whole balance to
the main address and finishes via `sweepFinish`. A thrown collaborator error
propagates with no state change. -/
def sweepCharge (env : SweepEnv) (chargeId : String) (s : PState) :
    Except String (PState × Option (String × Nat) × SweepLog) :=
  match alGet chargeId s.charges with
  | none => Except.error "Charge not found"
  | some charge =>
    if charge.status = ChargeStatus.swept then
      Except.ok (s, none, {})
    else
      match env.receivePendingErr with
      | some e => Except.error e
      | none =>
        if env.balance = 0 then
          Except.ok (s, none, {})
        else
          match env.sendErr with
          | some e => Except.error e
          | none =>
            let r := sweepFinish env chargeId charge s
            Except.ok (r.1, some (env.sendHash, env.balance),
              { sends := [(deriveAccount s.mainAccountIndex, env.balance)],
                webhookCalls := r.2 })

/-- The state an embedded `sweepCharge` call leaves behind when its caller
swallows (or never observes) a thrown error: the sweep's result state on
success, the unchanged state on failure. -/
def sweepOutcome (senv : SweepEnv) (chargeId : String) (s : PState) : PState :=
  match sweepCharge senv chargeId s with
  | Except.ok (s', _, _) => s'
  | Except.error _ => s

/-- `CreateChargeOptions` (processor.ts lines 95-100). `amountRaw` is the
`nanoToRaw` conversion of `amountNano` performed by the external currency
library (wallet.ts lines 323-325); the processor treats both opaquely. The
metadata blob is passed through unmodified and embedded as an opaque
string. -/
structure CreateChargeOptions where
  amountNano : String
  amountRaw : Nat
  timeoutMs : Option Nat := none
  metadata : Option String := none
  webhookUrl : Option String := none

/-- Per-call inputs of `createCharge` that come from outside the state: the
random charge id (`generateChargeId`, processor.ts lines 602-604) and the
clock. -/
structure CreateEnv where
  id : String
  now : Nat

def DEFAULT_TIMEOUT_MS : Nat := 30 * 60 * 1000

/-- `createCharge` (processor.ts lines 288-322): allocate the next
sub-account index with a single post-increment, derive its address, create
a `pending` charge, register it in both indices and with the monitor, and
schedule a debounced save. -/
def createCharge (env : CreateEnv) (opts : CreateChargeOptions) (s : PState) :
    PState × Charge :=
  let accountIndex := s.nextAccountIndex
  let address := deriveAccount accountIndex
  let timeoutMs := opts.timeoutMs.getD DEFAULT_TIMEOUT_MS
  let charge : Charge :=
    { id := env.id, address := address, accountIndex := accountIndex,
      amountRaw := opts.amountRaw, amountNano := opts.amountNano,
      receivedRaw := 0, receivedNano := "0",
      status := ChargeStatus.pending, transactions := [],
      createdAt := env.now, expiresAt := env.now + timeoutMs,
      webhookUrl := opts.webhookUrl, metadata := opts.metadata }
  let s' := persistState
    { s with nextAccountIndex := accountIndex + 1,
             charges := alSet env.id charge s.charges,
             addressToChargeId := alSet address env.id s.addressToChargeId,
             monitored := s.monitored ++ [address] }
  (s', charge)

/-- `getChargeByAddress` (processor.ts lines 328-331); the JS truthiness
test on the looked-up id makes an empty-string id behave as absent. -/
def getChargeByAddress (address : String) (s : PState) : Option Charge :=
  match alGet address s.addressToChargeId with
  | none => none
  | some id => if id = "" then none else alGet id s.charges

/-- A `payment` event from the block-lattice monitor (the external event
monitor's payload shape; the JS fields `to`/`from` are embedded as
`toAddr`/`sender`). -/
structure PaymentEvent where
  toAddr : String
  sender : String
  hash : String
  amount : Nat
  amountNano : String
  timestamp : Nat

/-- The clock plus the collaborator responses of the auto-sweep a payment
may trigger. -/
structure PaymentEnv where
  now : Nat := 0
  sweepEnv : SweepEnv := {}

/-- `handlePayment` (processor.ts lines 347-392): route the event by
destination address; ignore it on a completed/expired/swept charge;
otherwise append the transaction, add its amount to `receivedRaw`, then
either complete (immediate persist, auto-sweep when configured — a sweep
failure is an unhandled rejection that leaves the pre-sweep state) or fall
back to `partial` with a debounced persist. -/
def handlePayment (env : PaymentEnv) (p : PaymentEvent) (s : PState) : PState :=
  match alGet p.toAddr s.addressToChargeId with
  | none => s
  | some chargeId =>
    if chargeId = "" then s
    else
      match alGet chargeId s.charges with
      | none => s
      | some charge =>
        if charge.status = ChargeStatus.completed ∨
            charge.status = ChargeStatus.expired ∨
            charge.status = ChargeStatus.swept then s
        else
          let tx : PaymentTransaction :=
            { hash := p.hash, sender := p.sender, amountRaw := p.amount,
              amountNano := p.amountNano, timestamp := p.timestamp }
          let newReceived := charge.receivedRaw + p.amount
          let charge1 := { charge with
            transactions := charge.transactions ++ [tx],
            receivedRaw := newReceived,
            receivedNano := rawToNano newReceived }
          if charge.amountRaw ≤ newReceived then
            let charge2 := { charge1 with
              status := ChargeStatus.completed, completedAt := some env.now }
            let s1 := persistStateNow env.now
              { s with charges := alSet chargeId charge2 s.charges }
            if s1.autoSweep then sweepOutcome env.sweepEnv charge.id s1
            else s1
          else
            let charge2 := { charge1 with status := ChargeStatus.part }
            persistState { s with charges := alSet chargeId charge2 s.charges }

/-- Ledger responses observed by `checkChargeStatus`: the pending-block
amounts and the current balance of the charge's sub-account. -/
structure StatusEnv where
  pendingAmounts : List Nat := []
  balance : Nat := 0

/-- `checkChargeStatus` (processor.ts lines 504-532): on-demand
reconciliation; computes paid/remaining from ledger truth and mutates
nothing. -/
def checkChargeStatus (env : StatusEnv) (chargeId : String) (s : PState) :
    Except String (Charge × Bool × Nat) :=
  match alGet chargeId s.charges with
  | none => Except.error "Charge not found"
  | some charge =>
    let totalReceived := env.balance + env.pendingAmounts.foldl (· + ·) 0
    let remaining := charge.amountRaw - totalReceived
    Except.ok (charge, decide (charge.amountRaw ≤ totalReceived), remaining)

/-- `deleteCharge` (processor.ts lines 565-582): `false` for an unknown id;
fails loudly unless the charge is swept, or expired with zero received;
otherwise remove the record, its address registration and its monitor
subscription, and schedule a save. -/
def deleteCharge (chargeId : String) (s : PState) :
    Except String (PState × Bool) :=
  match alGet chargeId s.charges with
  | none => Except.ok (s, false)
  | some charge =>
    if charge.status ≠ ChargeStatus.swept ∧
        ¬(charge.status = ChargeStatus.expired ∧ charge.receivedRaw = 0) then
      Except.error "Cannot delete charge with pending funds. Sweep first."
    else
      Except.ok (persistState
        { s with
          addressToChargeId := alDel charge.address s.addressToChargeId,
          charges := alDel chargeId s.charges,
          monitored := s.monitored.filter (fun a => a ≠ charge.address) }, true)

/-- `cleanupSweptCharges` (processor.ts lines 584-596): drop every swept
charge from the id map (the address index was already released at sweep)
and schedule a save when anything was removed. -/
def cleanupSweptCharges (s : PState) : PState × Nat :=
  let count := (s.charges.filter (fun p => p.2.status = ChargeStatus.swept)).length
  let s1 := { s with
    charges := s.charges.filter (fun p => ¬(p.2.status = ChargeStatus.swept)) }
  (if count ≠ 0 then persistState s1 else s1, count)

/-- One charge's step of the expiry pass (processor.ts lines 538-557,
synchronous part): mark an overdue pending/partial charge expired; with
received funds and auto-sweep on, queue it (by its `id` field) for the
deferred sweep; otherwise release its address from index and monitor. The
accumulator carries (state, state-changed flag, ids to sweep). -/
def expireStep (now : Nat) (acc : PState × Bool × List String)
    (id : String) : PState × Bool × List String :=
  match alGet id acc.1.charges with
  | none => acc
  | some c =>
    if (c.status = ChargeStatus.pending ∨ c.status = ChargeStatus.part) ∧
        c.expiresAt < now then
      if 0 < c.receivedRaw ∧ acc.1.autoSweep then
        ({ acc.1 with
           charges := alSet id { c with status := ChargeStatus.expired }
             acc.1.charges },
         true, acc.2.2 ++ [c.id])
      else
        ({ acc.1 with
           charges := alSet id { c with status := ChargeStatus.expired }
             acc.1.charges,
           addressToChargeId := alDel c.address acc.1.addressToChargeId,
           monitored := acc.1.monitored.filter (fun a => a ≠ c.address) },
         true, acc.2.2)
    else acc

/-- One expiry pass, phase 1 (processor.ts lines 534-558, synchronous
part). -/
def expirePass (now : Nat) (s : PState) : PState × Bool × List String :=
  (s.charges.map (·.1)).foldl (expireStep now) (s, false, [])

/-- `checkExpiredCharges` (processor.ts lines 534-563): after the
synchronous pass, persist (debounced) when anything changed, then the
fire-and-forget `sweepCharge(...).catch` calls run, each with its own
collaborator responses, errors reported but swallowed. -/
def checkExpiredCharges (now : Nat) (envOf : String → SweepEnv) (s : PState) :
    PState :=
  let r := expirePass now s
  let s2 := if r.2.1 then persistState r.1 else r.1
  r.2.2.foldl (fun st id => sweepOutcome (envOf id) id st) s2

/-- One pending ledger item discovered during startup recovery, together
with the outcome of the `wallet.receive` call that settles it (a failing
item is reported and skipped). -/
structure RecoveryItem where
  hash : String
  amount : Nat
  source : String
  receiveErr : Option String := none

/-- Collaborator responses one charge's recovery observes: its pending
items, the clock, and the responses of the sweep a completion triggers. -/
structure RecoveryEnv where
  items : List RecoveryItem := []
  now : Nat := 0
  sweepEnv : SweepEnv := {}

/-- Applying one recovered pending item (processor.ts lines 231-253):
settle it on-chain, then append the transaction and add its amount. -/
def applyRecoveryItem (now : Nat) (chargeId : String) (it : RecoveryItem)
    (s : PState) : PState :=
  match it.receiveErr with
  | some _ => s
  | none =>
    match alGet chargeId s.charges with
    | none => s
    | some charge =>
      let tx : PaymentTransaction :=
        { hash := it.hash, sender := it.source, amountRaw := it.amount,
          amountNano := rawToNano it.amount, timestamp := now }
      let charge' := { charge with
        transactions := charge.transactions ++ [tx],
        receivedRaw := charge.receivedRaw + it.amount,
        receivedNano := rawToNano (charge.receivedRaw + it.amount) }
      { s with charges := alSet chargeId charge' s.charges }

/-- The post-sweep trigger of a recovered completion (processor.ts lines
262-264): auto-sweep the completed charge (by its `id` field), a failure
being caught by the per-charge recovery guard. -/
def recoverSweep (env : RecoveryEnv) (charge : Charge) (s2 : PState) : PState :=
  if s2.autoSweep then sweepOutcome env.sweepEnv charge.id s2 else s2

/-- Status recomputation after the recovered items were applied
(processor.ts lines 255-268): completed (immediate persist, auto-sweep)
when `received >= required`, else partial when `received > 0` (debounced
persist). -/
def recoverFinish (env : RecoveryEnv) (chargeId : String) (s1 : PState) :
    PState :=
  match alGet chargeId s1.charges with
  | none => s1
  | some charge =>
    if charge.amountRaw ≤ charge.receivedRaw then
      recoverSweep env charge (persistStateNow env.now
        { s1 with charges := alSet chargeId { charge with
            status := ChargeStatus.completed,
            completedAt := some env.now } s1.charges })
    else if 0 < charge.receivedRaw then
      persistState { s1 with charges := alSet chargeId { charge with
          status := ChargeStatus.part } s1.charges }
    else s1

/-- Recovery of one active charge (processor.ts lines 222-272): nothing
happens when no pending items are reported; otherwise apply each item and
recompute the status exactly as the source does. -/
def recoverCharge (env : RecoveryEnv) (chargeId : String) (s : PState) : PState :=
  if env.items.isEmpty then s
  else recoverFinish env chargeId
    (env.items.foldl (fun st it => applyRecoveryItem env.now chargeId it st) s)

/-- `checkMissedPayments` (processor.ts lines 219-274): the startup recovery
scan over the charges that are active when it starts; each charge's failure
is isolated. -/
def checkMissedPayments (envOf : String → RecoveryEnv) (s : PState) : PState :=
  let ids := (s.charges.filter
    (fun p => p.2.status = ChargeStatus.pending ∨
      p.2.status = ChargeStatus.part)).map (·.1)
  ids.foldl (fun st id => recoverCharge (envOf id) id st) s

/-! ## Operations and runs -/

/-- One externally triggered processor operation, carrying the collaborator
responses it observes. -/
inductive Op where
  | create (env : CreateEnv) (opts : CreateChargeOptions)
  | payment (env : PaymentEnv) (p : PaymentEvent)
  | sweep (env : SweepEnv) (id : String)
  | expiry (now : Nat) (envOf : String → SweepEnv)
  | recovery (envOf : String → RecoveryEnv)
  | deleteOp (id : String)
  | cleanup

/-- The state after one operation; a thrown error leaves the caller with
the unchanged state. -/
def step (op : Op) (s : PState) : PState :=
  match op with
  | Op.create env opts => (createCharge env opts s).1
  | Op.payment env p => handlePayment env p s
  | Op.sweep env id => sweepOutcome env id s
  | Op.expiry now envOf => checkExpiredCharges now envOf s
  | Op.recovery envOf => checkMissedPayments envOf s
  | Op.deleteOp id =>
    match deleteCharge id s with
    | Except.ok (s', _) => s'
    | Except.error _ => s
  | Op.cleanup => cleanupSweptCharges s |>.1

def run (ops : List Op) (s : PState) : PState :=
  ops.foldl (fun s op => step op s) s

/-! ## The §4.2 state machine -/

/-- Reachability (reflexive-transitive) in the §4.2 transition graph:
`pending -> partial -> completed -> swept`, `pending/partial -> expired ->
swept`. -/
def statusLe : ChargeStatus → ChargeStatus → Bool
  | ChargeStatus.pending, _ => true
  | ChargeStatus.part, ChargeStatus.pending => false
  | ChargeStatus.part, _ => true
  | ChargeStatus.completed, ChargeStatus.completed => true
  | ChargeStatus.completed, ChargeStatus.swept => true
  | ChargeStatus.completed, _ => false
  | ChargeStatus.expired, ChargeStatus.expired => true
  | ChargeStatus.expired, ChargeStatus.swept => true
  | ChargeStatus.expired, _ => false
  | ChargeStatus.swept, ChargeStatus.swept => true
  | ChargeStatus.swept, _ => false

/-- The exact transition list enumerated in claim C1 (the edges of §4.2,
with the expired-to-swept edge conditional on funds). Stated from the
spec's words, to be compared against what the code does. -/
def specTransition : ChargeStatus → ChargeStatus → Bool
  | ChargeStatus.pending, ChargeStatus.part => true
  | ChargeStatus.pending, ChargeStatus.completed => true
  | ChargeStatus.part, ChargeStatus.completed => true
  | ChargeStatus.pending, ChargeStatus.expired => true
  | ChargeStatus.part, ChargeStatus.expired => true
  | ChargeStatus.completed, ChargeStatus.swept => true
  | ChargeStatus.expired, ChargeStatus.swept => true
  | _, _ => false

/-- The status change one single operation may make to one charge, as the
code implements it: stay put, follow a non-sweep edge of §4.2, or — when
the reconciled on-chain balance is nonzero (`balNz`) — jump from any
non-swept status to `swept`. -/
def stepStatusOk (balNz : Bool) (a b : ChargeStatus) : Bool :=
  if a = b then true
  else match a, b with
    | ChargeStatus.pending, ChargeStatus.part => true
    | ChargeStatus.pending, ChargeStatus.completed => true
    | ChargeStatus.part, ChargeStatus.completed => true
    | ChargeStatus.pending, ChargeStatus.expired => true
    | ChargeStatus.part, ChargeStatus.expired => true
    | _, ChargeStatus.swept => balNz
    | _, _ => false

/-! ## C9: sequential charge creation -/

/-- Running `createCharge` once per element of `specs`, in order, collecting
the created charges. -/
def createMany : List (CreateEnv × CreateChargeOptions) → PState → PState × List Charge
  | [], s => (s, [])
  | spec :: rest, s =>
    let r := createCharge spec.1 spec.2 s
    let r' := createMany rest r.1
    (r'.1, r.2 :: r'.2)

/-! ## Concrete scenarios -/

/-- A placeholder charge used to instantiate universally quantified charge
arguments at concrete inputs. -/
def sampleCharge : Charge :=
  { id := "chg_s", address := "addr_s", accountIndex := 0, amountRaw := 1,
    amountNano := "1", receivedRaw := 0, receivedNano := "0",
    status := ChargeStatus.pending, transactions := [],
    createdAt := 0, expiresAt := 1 }

/-- A processor with one freshly created pending charge `chg_a` for
`100` raw units at sub-account index 1. -/
def c1statePending : PState :=
  (createCharge ⟨"chg_a", 0⟩ { amountNano := "1", amountRaw := 100 }
    (initProcessor { startingIndex := 1 } none)).1

/-- The same processor after a direct `sweepCharge` call that finds a
nonzero reconciled balance of `40` on the pending charge's sub-account. -/
def c1stateSwept : PState :=
  step (Op.sweep { balance := 40, sendHash := "sw1", now := 5 } "chg_a")
    c1statePending

/-- A processor holding one charge `chg_a` that was paid in full and then
auto-swept (create, then a payment event of the full amount with auto-sweep
succeeding). -/
def c3stateSwept : PState :=
  handlePayment
    { now := 4, sweepEnv := { balance := 50, sendHash := "sw", now := 5 } }
    { toAddr := deriveAccount 1, sender := "x", hash := "h1", amount := 50,
      amountNano := "1", timestamp := 3 }
    ((createCharge ⟨"chg_a", 0⟩ { amountNano := "1", amountRaw := 50 }
      (initProcessor { startingIndex := 1 } none)).1)

/-- The snapshot file the processor would persist in that state. -/
def c3file : PersistedStateJ := savePersistedState (snapshotOf 9 c3stateSwept)

/-- A new processor constructed over that persisted snapshot. -/
def c3stateReloaded : PState :=
  initProcessor { startingIndex := 1 } (some c3file)

/-- A processor with one pending charge `chg_a` for `50` raw units. -/
def c5statePending : PState :=
  (createCharge ⟨"chg_a", 0⟩ { amountNano := "1", amountRaw := 50 }
    (initProcessor { startingIndex := 1 } none)).1

/-- The same processor after the charge was fully paid and auto-swept. -/
def c5stateSwept : PState :=
  handlePayment
    { now := 4, sweepEnv := { balance := 50, sendHash := "sw", now := 5 } }
    { toAddr := deriveAccount 1, sender := "x", hash := "h1", amount := 50,
      amountNano := "1", timestamp := 3 }
    c5statePending

def c5chargePending : Charge :=
  (alGet "chg_a" c5statePending.charges).getD sampleCharge

def c5chargeSwept : Charge :=
  (alGet "chg_a" c5stateSwept.charges).getD sampleCharge

/-- A processor with one fully paid and swept charge `chg_b`, and its
pending twin used for the failure case. -/
def c7statePending : PState :=
  (createCharge ⟨"chg_b", 0⟩ { amountNano := "1", amountRaw := 60 }
    (initProcessor { startingIndex := 1 } none)).1

def c7stateSwept : PState :=
  handlePayment
    { now := 4, sweepEnv := { balance := 60, sendHash := "sw", now := 5 } }
    { toAddr := deriveAccount 1, sender := "x", hash := "h2", amount := 60,
      amountNano := "1", timestamp := 3 }
    c7statePending

def c7chargePending : Charge :=
  (alGet "chg_b" c7statePending.charges).getD sampleCharge

def c7chargeSwept : Charge :=
  (alGet "chg_b" c7stateSwept.charges).getD sampleCharge

/-- The payment environment used in the C2 witness scenario. -/
def c2payEnv : PaymentEnv := { now := 8 }

/-- A partial payment event of `60` raw units used in the C2 witness. -/
def c2payEvt : PaymentEvent :=
  { toAddr := deriveAccount 1, sender := "y", hash := "h3", amount := 60,
    amountNano := "1", timestamp := 8 }

/-- The sweep environment used in the C4 witness scenario. -/
def c4env : SweepEnv := { balance := 40, sendHash := "sw1", now := 5 }

def c4charge : Charge :=
  (alGet "chg_a" c1statePending.charges).getD sampleCharge

/-- A processor with one pending charge `chg_w` for `30` raw units that has
a webhook URL configured. -/
def c6statePending : PState :=
  (createCharge ⟨"chg_w", 0⟩
    { amountNano := "1", amountRaw := 30, webhookUrl := some "hook1" }
    (initProcessor { startingIndex := 1 } none)).1

def c6charge : Charge :=
  (alGet "chg_w" c6statePending.charges).getD sampleCharge

/-- A sweep whose webhook POST receives a non-success HTTP status. -/
def c6envFail : SweepEnv :=
  { balance := 30, sendHash := "s2", now := 6, webhookOk := some false }

/-- A sweep whose webhook POST succeeds. -/
def c6envOk : SweepEnv :=
  { balance := 30, sendHash := "s3", now := 7, webhookOk := some true }

/-- The state after sweeping `chg_w` with a successful webhook delivery:
the charge is swept and its notification-sent flag is set. -/
def c6stateSwept : PState := sweepOutcome c6envOk "chg_w" c6statePending

def c6chargeSwept : Charge :=
  (alGet "chg_w" c6stateSwept.charges).getD sampleCharge

/-- The single processing operation of the C1 witness scenario: a direct
sweep of the pending charge with a nonzero reconciled balance. -/
def c1ops : List Op :=
  [Op.sweep { balance := 40, sendHash := "sw1", now := 5 } "chg_a"]

/-- The update a successful sweep applies to the charge record: mark swept,
record sweep time and transaction hash; `wh` says whether a successful
webhook delivery additionally set the notification-sent flag. -/
def sweptUpd (env : SweepEnv) (c : Charge) (wh : Bool) : Charge :=
  let c1 := { c with
    status := ChargeStatus.swept, sweptAt := some env.now,
    sweepTxHash := some env.sendHash }
  if wh then { c1 with webhookSent := some true } else c1

/-- The full state a successful sweep of charge `c` (stored at key `cid`)
leaves behind: charge updated, address released from index and monitor,
snapshot flushed. -/
def sweepBaseState (env : SweepEnv) (cid : String) (c : Charge) (wh : Bool)
    (s : PState) : PState :=
  persistStateNow env.now
    { s with
      charges := alSet cid (sweptUpd env c wh) s.charges,
      addressToChargeId := alDel c.address s.addressToChargeId,
      monitored := s.monitored.filter (fun a => a ≠ c.address) }

/-- The sum of the `amountRaw` fields of a transaction list. -/
def sumAmounts (l : List PaymentTransaction) : Nat :=
  (l.map (fun t => t.amountRaw)).sum

/-- The C2 invariant for one charge: the cumulative received amount equals
the sum of its recorded transaction amounts. -/
def chargeConsistent (c : Charge) : Prop :=
  c.receivedRaw = sumAmounts c.transactions

/-- The C2 invariant over a charge map. -/
def AllConsistentL (l : List (String × Charge)) : Prop :=
  ∀ p ∈ l, chargeConsistent p.2

/-- The C2 invariant over a processor state. -/
def AllConsistent (s : PState) : Prop := AllConsistentL s.charges

/-- The transaction record `handlePayment` appends for a payment event. -/
def payTx (p : PaymentEvent) : PaymentTransaction :=
  { hash := p.hash, sender := p.sender, amountRaw := p.amount,
    amountNano := p.amountNano, timestamp := p.timestamp }

instance (c : Charge) : Decidable (chargeConsistent c) := by
  unfold chargeConsistent
  infer_instance

instance (l : List (String × Charge)) : Decidable (AllConsistentL l) := by
  unfold AllConsistentL
  exact List.decidableBAll _ l

instance (s : PState) : Decidable (AllConsistent s) := by
  unfold AllConsistent
  infer_instance

/-- The operations claim C1 ranges over: payment application, expiry
check, sweep, recovery (creation, deletion and cleanup are excluded by the
claim's own list). -/
def Op.isProcessing : Op → Bool
  | Op.payment _ _ => true
  | Op.sweep _ _ => true
  | Op.expiry _ _ => true
  | Op.recovery _ => true
  | _ => false

/-- Whether the reconciled on-chain balance the operation would observe for
the sub-account of the charge stored at key `id` is nonzero. -/
def opBalNz : Op → String → Bool
  | Op.sweep env _, _ => env.balance != 0
  | Op.payment env _, _ => env.sweepEnv.balance != 0
  | Op.expiry _ envOf, id => (envOf id).balance != 0
  | Op.recovery envOf, id => (envOf id).sweepEnv.balance != 0
  | _, _ => false

/-- Every map entry stores a charge whose `id` field is its key — true of
every state the processor builds, since entries are only created by
`charges.set(charge.id, charge)`. -/
def WellKeyedL (l : List (String × Charge)) : Prop := ∀ p ∈ l, p.2.id = p.1

def WellKeyed (s : PState) : Prop := WellKeyedL s.charges

/-- The charge map has no duplicate keys — as a JS `Map` cannot. -/
def KeyNodupL (l : List (String × Charge)) : Prop := (l.map Prod.fst).Nodup

def KeyNodup (s : PState) : Prop := KeyNodupL s.charges

instance (l : List (String × Charge)) : Decidable (WellKeyedL l) := by
  unfold WellKeyedL
  exact List.decidableBAll _ l

instance (s : PState) : Decidable (WellKeyed s) := by
  unfold WellKeyed
  infer_instance

instance (l : List (String × Charge)) : Decidable (KeyNodupL l) := by
  unfold KeyNodupL
  infer_instance

instance (s : PState) : Decidable (KeyNodup s) := by
  unfold KeyNodup
  infer_instance

/-- Whether one entry of the address index points at a live (non-swept)
charge whose address is the entry's key. -/
def addrEntryOk (s : PState) (q : String × String) : Prop :=
  ∃ c, alGet q.2 s.charges = some c ∧ c.address = q.1 ∧
    c.status ≠ ChargeStatus.swept

instance (s : PState) (q : String × String) : Decidable (addrEntryOk s q) :=
  match h : alGet q.2 s.charges with
  | none => isFalse (by
      rintro ⟨c, hc, -⟩
      rw [h] at hc
      cases hc)
  | some c => decidable_of_iff
      (c.address = q.1 ∧ c.status ≠ ChargeStatus.swept)
      (by
        constructor
        · intro hc
          exact ⟨c, h, hc.1, hc.2⟩
        · rintro ⟨c', hc', h1, h2⟩
          rw [h] at hc'
          cases hc'
          exact ⟨h1, h2⟩)

/-- The C3 well-formedness invariant of the two indices: every charge is
stored under its id, carries the address derived from its sub-account
index, and its index is below the allocator; distinct charges have distinct
sub-account indices; both maps have no duplicate keys; and every address
index entry points at a live charge owning that address. -/
def AddrInv (s : PState) : Prop :=
  (∀ p ∈ s.charges, p.2.id = p.1 ∧
    p.2.address = deriveAccount p.2.accountIndex ∧
    p.2.accountIndex < s.nextAccountIndex) ∧
  (∀ p ∈ s.charges, ∀ q ∈ s.charges, p.1 ≠ q.1 →
    p.2.accountIndex ≠ q.2.accountIndex) ∧
  KeyNodupL s.charges ∧
  (s.addressToChargeId.map Prod.fst).Nodup ∧
  (∀ q ∈ s.addressToChargeId, addrEntryOk s q)

instance (s : PState) : Decidable (AddrInv s) := by
  unfold AddrInv
  infer_instance

/-- The address mapping of every swept charge has been released. -/
def SweptReleased (s : PState) : Prop :=
  ∀ id c, alGet id s.charges = some c → c.status = ChargeStatus.swept →
    alGet c.address s.addressToChargeId = none

/-- The per-operation freshness condition of charge-id generation:
`generateChargeId` (crypto-random, processor.ts lines 602-604) never
collides with a stored charge. Only creation generates an id. -/
def OpFresh : Op → PState → Prop
  | Op.create env _, s => alGet env.id s.charges = none
  | _, _ => True

instance (op : Op) (s : PState) : Decidable (OpFresh op s) :=
  match op with
  | Op.create env _ =>
    inferInstanceAs (Decidable (alGet env.id s.charges = none))
  | Op.payment _ _ => inferInstanceAs (Decidable True)
  | Op.sweep _ _ => inferInstanceAs (Decidable True)
  | Op.expiry _ _ => inferInstanceAs (Decidable True)
  | Op.recovery _ => inferInstanceAs (Decidable True)
  | Op.deleteOp _ => inferInstanceAs (Decidable True)
  | Op.cleanup => inferInstanceAs (Decidable True)

/-- A run in which every charge id handed to `createCharge` is fresh at
the moment of that call. -/
def FreshRun : List Op → PState → Prop
  | [], _ => True
  | op :: ops, s => OpFresh op s ∧ FreshRun ops (step op s)

instance instDecFreshRun : ∀ (ops : List Op) (s : PState),
    Decidable (FreshRun ops s)
  | [], _ => inferInstanceAs (Decidable True)
  | op :: ops, s =>
    have : Decidable (FreshRun ops (step op s)) :=
      instDecFreshRun ops (step op s)
    inferInstanceAs (Decidable (_ ∧ _))

/-- A two-operation run for exercising the C3 invariant: create a second
charge `chg_b`, then manually sweep the pending `chg_a` off a reconciled
balance of `40`. -/
def c3ops : List Op :=
  [Op.create ⟨"chg_b", 2⟩ { amountNano := "2", amountRaw := 50 },
   Op.sweep { balance := 40, sendHash := "sw9", now := 9 } "chg_a"]

/-! ## Theorems -/

theorem alGet_alSet (k k' : String) (v : β) (l : List (String × β)) :
    alGet k' (alSet k v l) = if k = k' then some v else alGet k' l := by
  induction l with
  | nil => by_cases h : k = k' <;> simp [alGet, alSet, h]
  | cons p rest ih =>
    obtain ⟨k₀, v₀⟩ := p
    by_cases h0 : k₀ = k
    · by_cases h1 : k = k' <;> simp [alGet, alSet, h0, h1]
    · by_cases h1 : k₀ = k' <;> by_cases h2 : k = k' <;>
        simp_all [alGet, alSet, h0, h1]
  -- note: when k₀ = k' and k = k' the two hypotheses force k₀ = k

theorem alGet_alDel (k k' : String) (l : List (String × β)) :
    alGet k' (alDel k l) = if k = k' then none else alGet k' l := by
  induction l with
  | nil => by_cases h : k = k' <;> simp [alGet, alDel, h]
  | cons p rest ih =>
    obtain ⟨k₀, v₀⟩ := p
    by_cases h0 : k₀ = k
    · by_cases h1 : k = k' <;> simp_all [alGet, alDel, h0, h1]
    · by_cases h1 : k₀ = k' <;> by_cases h2 : k = k' <;>
        simp_all [alGet, alDel, h0, h1]

theorem alSet_alSet (k : String) (v v' : β) (l : List (String × β)) :
    alSet k v' (alSet k v l) = alSet k v' l := by
  induction l with
  | nil => simp [alSet]
  | cons p rest ih =>
    obtain ⟨k₀, v₀⟩ := p
    by_cases h0 : k₀ = k <;> simp [alSet, h0, ih]

theorem decNat_append (xs : List Nat) (d : Nat) :
    decNat (xs ++ [d]) = 10 * decNat xs + d := by
  simp [decNat, List.foldl_append]

theorem decNat_reverse (l : List Nat) : decNat l.reverse = decodeRev l := by
  induction l with
  | nil => rfl
  | cons d ds ih =>
    simp [List.reverse_cons, decNat_append, decodeRev, ih, Nat.mul_comm]
    omega

theorem decodeRev_digitsRev (fuel : Nat) :
    ∀ n, n ≤ fuel → decodeRev (digitsRev fuel n) = n := by
  induction fuel with
  | zero =>
    intro n hn
    interval_cases n
    rfl
  | succ fuel ih =>
    intro n hn
    match n with
    | 0 => rfl
    | m + 1 =>
      have hdiv : (m + 1) / 10 ≤ fuel := by
        have := Nat.div_lt_self (Nat.succ_pos m) (by omega : 1 < 10)
        omega
      simp only [digitsRev, decodeRev, ih _ hdiv]
      omega

theorem decNat_natDigits (n : Nat) : decNat (natDigits n) = n := by
  unfold natDigits
  by_cases h : n = 0
  · simp [h, decNat]
  · simp [h, decNat_reverse, decodeRev_digitsRev n n le_rfl]

theorem digitsRev_lt_ten (fuel : Nat) :
    ∀ n d, d ∈ digitsRev fuel n → d < 10 := by
  induction fuel with
  | zero =>
    intro n d hd
    match n with
    | 0 => simp [digitsRev] at hd
    | _ + 1 => simp [digitsRev] at hd
  | succ fuel ih =>
    intro n d hd
    match n with
    | 0 => simp [digitsRev] at hd
    | m + 1 =>
      simp only [digitsRev, List.mem_cons] at hd
      rcases hd with h | h
      · subst h
        exact Nat.mod_lt _ (by omega)
      · exact ih _ _ h

theorem natDigits_lt_ten (n : Nat) : ∀ d ∈ natDigits n, d < 10 := by
  intro d hd
  unfold natDigits at hd
  by_cases h : n = 0
  · simp [h] at hd
    omega
  · simp only [h, if_false, List.mem_reverse] at hd
    exact digitsRev_lt_ten n n d hd

theorem charDigit_digitChar {d : Nat} (h : d < 10) :
    charDigit (digitChar d) = d := by
  interval_cases d <;> decide

theorem map_charDigit_digitChar :
    ∀ l : List Nat, (∀ d ∈ l, d < 10) → l.map (fun d => charDigit (digitChar d)) = l := by
  intro l hl
  induction l with
  | nil => rfl
  | cons d ds ih =>
    simp only [List.map_cons]
    rw [charDigit_digitChar (hl d (List.mem_cons_self d ds)),
      ih (fun e he => hl e (List.mem_cons_of_mem d he))]

theorem natOfDigitChars_digitString (n : Nat) :
    natOfDigitChars (digitString n) = n := by
  unfold natOfDigitChars digitString
  rw [List.map_map]
  rw [show charDigit ∘ digitChar = fun d => charDigit (digitChar d) from rfl]
  rw [map_charDigit_digitChar (natDigits n) (natDigits_lt_ten n), decNat_natDigits]

theorem isoToDate_dateToISO (t : Nat) : isoToDate (dateToISO t) = t := by
  show natOfDigitChars (String.mk (digitString t)).data = t
  rw [show (String.mk (digitString t)).data = digitString t from rfl]
  exact natOfDigitChars_digitString t

theorem deriveAccount_injective {i j : Nat}
    (h : deriveAccount i = deriveAccount j) : i = j := by
  unfold deriveAccount at h
  have hdata : ['n', 'a', 'n', 'o', '_'] ++ digitString i
      = ['n', 'a', 'n', 'o', '_'] ++ digitString j := congrArg String.data h
  have hds : digitString i = digitString j := List.append_cancel_left hdata
  have := congrArg natOfDigitChars hds
  rwa [natOfDigitChars_digitString, natOfDigitChars_digitString] at this

theorem statusLe_refl (a : ChargeStatus) : statusLe a a = true := by
  cases a <;> rfl

theorem statusLe_trans {a b c : ChargeStatus} (h1 : statusLe a b = true)
    (h2 : statusLe b c = true) : statusLe a c = true := by
  revert h1 h2
  cases a <;> cases b <;> cases c <;> decide

theorem stepStatusOk_le {z : Bool} {a b : ChargeStatus}
    (h : stepStatusOk z a b = true) : statusLe a b = true := by
  revert h
  cases z <;> cases a <;> cases b <;> decide

/-! ## C8: snapshot round-trip -/

theorem natDigits_ne_nil (n : Nat) : natDigits n ≠ [] := by
  unfold natDigits
  by_cases h : n = 0
  · simp [h]
  · match n, h with
    | m + 1, _ =>
      simp [digitsRev]

theorem dateToISO_ne_empty (t : Nat) : dateToISO t ≠ "" := by
  unfold dateToISO digitString
  intro h
  have : (natDigits t).map digitChar = ([] : List Char) := by
    have := congrArg String.data h
    simpa using this
  exact natDigits_ne_nil t (List.map_eq_nil_iff.mp this)

theorem decodeTransaction_encodeTransaction (t : PaymentTransaction) :
    decodeTransaction (encodeTransaction t) = t := by
  simp [decodeTransaction, encodeTransaction, isoToDate_dateToISO]

theorem decodeCharge_encodeCharge (c : Charge) :
    decodeCharge (encodeCharge c) = c := by
  unfold decodeCharge encodeCharge
  simp only [List.map_map]
  have htx : c.transactions.map (decodeTransaction ∘ encodeTransaction)
      = c.transactions := by
    have : decodeTransaction ∘ encodeTransaction = id := by
      funext t
      exact decodeTransaction_encodeTransaction t
    simp [this]
  cases c with
  | mk id address accountIndex amountRaw amountNano receivedRaw receivedNano
      status transactions createdAt expiresAt completedAt sweptAt
      sweepTxHash webhookUrl webhookSent metadata =>
    simp only at htx ⊢
    rw [htx]
    have hopt : ∀ o : Option Nat,
        (match o.map dateToISO with
          | none => none
          | some s => if s = "" then none else some (isoToDate s)) = o := by
      intro o
      cases o with
      | none => rfl
      | some t => simp [dateToISO_ne_empty t, isoToDate_dateToISO]
    simp only [isoToDate_dateToISO, Charge.mk.injEq, and_true, true_and]
    exact ⟨hopt completedAt, hopt sweptAt⟩

/-- C8: Saving a persisted snapshot and reloading it yields exactly the
state that was saved: the same charge ids, addresses, amounts, received
totals, statuses, transaction lists and all timestamps (at the precision of
the canonical textual serialization), and the same next sub-account
index. -/
theorem c8_snapshot_roundtrip (st : PersistedState) :
    loadPersistedState (some (savePersistedState st)) = some st := by
  unfold loadPersistedState savePersistedState
  simp only [Option.some.injEq]
  cases st with
  | mk nextAccountIndex charges updatedAt =>
    simp only [PersistedState.mk.injEq, List.map_map, isoToDate_dateToISO,
      true_and, and_true]
    have : decodeCharge ∘ encodeCharge = id := by
      funext c
      exact decodeCharge_encodeCharge c
    simp [this]

theorem createCharge_nextAccountIndex (env : CreateEnv)
    (opts : CreateChargeOptions) (s : PState) :
    (createCharge env opts s).1.nextAccountIndex = s.nextAccountIndex + 1 := rfl

theorem createMany_accountIndexes :
    ∀ (specs : List (CreateEnv × CreateChargeOptions)) (s : PState),
      ((createMany specs s).2.map (·.accountIndex))
          = List.range' s.nextAccountIndex specs.length ∧
        (createMany specs s).1.nextAccountIndex
          = s.nextAccountIndex + specs.length ∧
        ((createMany specs s).2.map (·.address))
          = (List.range' s.nextAccountIndex specs.length).map deriveAccount := by
  intro specs
  induction specs with
  | nil => intro s; simp [createMany]
  | cons spec rest ih =>
    intro s
    obtain ⟨h1, h2, h3⟩ := ih (createCharge spec.1 spec.2 s).1
    rw [createCharge_nextAccountIndex] at h1 h2 h3
    refine ⟨?_, ?_, ?_⟩
    · simp only [createMany, List.map_cons, h1, List.range'_succ]
      rfl
    · simp only [createMany, h2, List.length_cons]
      omega
    · simp only [createMany, List.map_cons, h3, List.range'_succ, List.map]
      rfl

/-- C9: creating N charges in sequence yields charges whose sub-account
indices are exactly the next N indices in order (so strictly increasing and
pairwise distinct — each call takes the next unallocated index by a single
increment) and whose addresses are pairwise distinct. -/
theorem c9_sequential_creates (specs : List (CreateEnv × CreateChargeOptions))
    (s : PState) :
    ((createMany specs s).2.map (·.accountIndex))
        = List.range' s.nextAccountIndex specs.length ∧
      ((createMany specs s).2.map (·.accountIndex)).Pairwise (· < ·) ∧
      ((createMany specs s).2.map (·.accountIndex)).Nodup ∧
      ((createMany specs s).2.map (·.address)).Nodup ∧
      (createMany specs s).1.nextAccountIndex
        = s.nextAccountIndex + specs.length := by
  obtain ⟨h1, h2, h3⟩ := createMany_accountIndexes specs s
  refine ⟨h1, ?_, ?_, ?_, h2⟩
  · rw [h1]
    exact List.pairwise_lt_range' _ _
  · rw [h1]
    exact List.nodup_range' _ _
  · rw [h3]
    exact (List.nodup_range' _ _).map
      (fun a b hab => by exact deriveAccount_injective hab)

/-! ## C5, C7, C10: guard behaviour of sweep, delete and status check -/

/-- C5: `sweepCharge` raises "Charge not found" for an unknown id; returns
the "nothing to sweep" result (`none`) with the state untouched when the
charge is already swept; and likewise returns "nothing to sweep" with the
charge (and the whole state) unchanged when the post-reconciliation balance
is zero. -/
theorem c5_sweep_guards (env : SweepEnv) (chargeId : String) (s : PState)
    (c : Charge) :
    (alGet chargeId s.charges = none →
      sweepCharge env chargeId s = Except.error "Charge not found") ∧
    (alGet chargeId s.charges = some c → c.status = ChargeStatus.swept →
      sweepCharge env chargeId s = Except.ok (s, none, {})) ∧
    (alGet chargeId s.charges = some c → c.status ≠ ChargeStatus.swept →
      env.receivePendingErr = none → env.balance = 0 →
      sweepCharge env chargeId s = Except.ok (s, none, {})) := by
  refine ⟨?_, ?_, ?_⟩
  · intro h
    simp [sweepCharge, h]
  · intro h hs
    simp [sweepCharge, h, hs]
  · intro h hs hr hb
    simp [sweepCharge, h, hs, hr, hb]

/-- C7: `deleteCharge` on an existing charge succeeds exactly when the
charge is swept, or expired with zero received: then the charge record and
its address registration are removed. In every other status it raises an
error (never silently succeeds) and the state — record, both indices,
status — is untouched. -/
theorem c7_delete_guard (chargeId : String) (s : PState) (c : Charge)
    (h : alGet chargeId s.charges = some c) :
    (c.status = ChargeStatus.swept ∨
        (c.status = ChargeStatus.expired ∧ c.receivedRaw = 0) →
      ∃ s', deleteCharge chargeId s = Except.ok (s', true) ∧
        alGet chargeId s'.charges = none ∧
        alGet c.address s'.addressToChargeId = none ∧
        s'.charges = alDel chargeId s.charges ∧
        s'.addressToChargeId = alDel c.address s.addressToChargeId) ∧
    (c.status ≠ ChargeStatus.swept ∧
        ¬(c.status = ChargeStatus.expired ∧ c.receivedRaw = 0) →
      deleteCharge chargeId s
          = Except.error "Cannot delete charge with pending funds. Sweep first." ∧
        step (Op.deleteOp chargeId) s = s) := by
  constructor
  · intro hok
    have hcond : ¬(c.status ≠ ChargeStatus.swept ∧
        ¬(c.status = ChargeStatus.expired ∧ c.receivedRaw = 0)) := by
      rcases hok with h1 | h2
      · intro hc; exact hc.1 h1
      · intro hc; exact hc.2 h2
    refine ⟨persistState
      { s with
        addressToChargeId := alDel c.address s.addressToChargeId,
        charges := alDel chargeId s.charges,
        monitored := s.monitored.filter (fun a => a ≠ c.address) },
      ?_, ?_, ?_, rfl, rfl⟩
    · simp only [deleteCharge, h]
      rw [if_neg hcond]
    · show alGet chargeId (alDel chargeId s.charges) = none
      simp [alGet_alDel]
    · show alGet c.address (alDel c.address s.addressToChargeId) = none
      simp [alGet_alDel]
  · intro hbad
    have hd : deleteCharge chargeId s
        = Except.error "Cannot delete charge with pending funds. Sweep first." := by
      simp [deleteCharge, h, hbad]
    exact ⟨hd, by simp [step, hd]⟩

/-- C10: for an id with no charge, `deleteCharge` returns `false` without
an error and with the state (charge map, address index, persistence) left
exactly as it was, while `sweepCharge` and `checkChargeStatus` raise
"Charge not found". -/
theorem c10_unknown_id (chargeId : String) (s : PState) (senv : SweepEnv)
    (qenv : StatusEnv) (h : alGet chargeId s.charges = none) :
    deleteCharge chargeId s = Except.ok (s, false) ∧
    sweepCharge senv chargeId s = Except.error "Charge not found" ∧
    checkChargeStatus qenv chargeId s = Except.error "Charge not found" := by
  refine ⟨?_, ?_, ?_⟩
  · simp [deleteCharge, h]
  · simp [sweepCharge, h]
  · simp [checkChargeStatus, h]

/-- C1 counterexample: a single processor operation (a `sweepCharge` call
on a pending charge whose sub-account holds a nonzero reconciled balance)
changes the charge's status from `pending` directly to `swept` — a
transition that is not among the transitions enumerated in the claim
(pending→partial, pending→completed, partial→completed,
pending/partial→expired, completed→swept, non-empty expired→swept). -/
theorem c1_counterexample :
    (alGet "chg_a" c1statePending.charges).map (·.status)
        = some ChargeStatus.pending ∧
      (alGet "chg_a" c1stateSwept.charges).map (·.status)
        = some ChargeStatus.swept ∧
      specTransition ChargeStatus.pending ChargeStatus.swept = false ∧
      ChargeStatus.pending ≠ ChargeStatus.swept := by
  refine ⟨by decide, by decide, by decide, by decide⟩

/-- C3 counterexample: at sweep time the address mapping is released, but
the constructor rebuilds the address index from every persisted charge, so
after loading a persisted snapshot the swept charge's address is present in
the address index again — contradicting the claim's "no address of a charge
whose status is swept is present in the address index" at states reached by
loading a snapshot. -/
theorem c3_counterexample :
    alGet (deriveAccount 1) c3stateSwept.addressToChargeId = none ∧
      (alGet "chg_a" c3stateReloaded.charges).map (·.status)
        = some ChargeStatus.swept ∧
      (alGet "chg_a" c3stateReloaded.charges).map (·.address)
        = some (deriveAccount 1) ∧
      alGet (deriveAccount 1) c3stateReloaded.addressToChargeId
        = some "chg_a" := by
  refine ⟨by decide, by decide, by decide, by decide⟩

theorem c5_sweep_guards_witness :
    sweepCharge {} "nope" (initProcessor {} none)
        = Except.error "Charge not found" ∧
      sweepCharge { balance := 7 } "chg_a" c5stateSwept
        = Except.ok (c5stateSwept, none, {}) ∧
      sweepCharge { balance := 0 } "chg_a" c5statePending
        = Except.ok (c5statePending, none, {}) :=
  ⟨(c5_sweep_guards {} "nope" (initProcessor {} none) sampleCharge).1
      (by decide),
    (c5_sweep_guards { balance := 7 } "chg_a" c5stateSwept
        c5chargeSwept).2.1 (by decide) (by decide),
    (c5_sweep_guards { balance := 0 } "chg_a" c5statePending
        c5chargePending).2.2 (by decide) (by decide) rfl rfl⟩

theorem c7_delete_guard_witness :
    (∃ s', deleteCharge "chg_b" c7stateSwept = Except.ok (s', true) ∧
        alGet "chg_b" s'.charges = none ∧
        alGet c7chargeSwept.address s'.addressToChargeId = none ∧
        s'.charges = alDel "chg_b" c7stateSwept.charges ∧
        s'.addressToChargeId
          = alDel c7chargeSwept.address c7stateSwept.addressToChargeId) ∧
      (deleteCharge "chg_b" c7statePending
          = Except.error "Cannot delete charge with pending funds. Sweep first." ∧
        step (Op.deleteOp "chg_b") c7statePending = c7statePending) :=
  ⟨(c7_delete_guard "chg_b" c7stateSwept c7chargeSwept (by decide)).1
      (Or.inl (by decide)),
    (c7_delete_guard "chg_b" c7statePending c7chargePending (by decide)).2
      (by decide)⟩

theorem c10_unknown_id_witness :
    deleteCharge "ghost" c1statePending = Except.ok (c1statePending, false) ∧
      sweepCharge { balance := 3 } "ghost" c1statePending
        = Except.error "Charge not found" ∧
      checkChargeStatus { balance := 3 } "ghost" c1statePending
        = Except.error "Charge not found" :=
  c10_unknown_id "ghost" c1statePending { balance := 3 } { balance := 3 }
    (by decide)

theorem sweepFinish_eq (env : SweepEnv) (cid : String) (c : Charge)
    (s : PState) :
    sweepFinish env cid c s =
      if c.webhookUrl.getD "" ≠ "" ∧ c.webhookSent.getD false = false then
        match env.webhookOk with
        | some true => (sweepBaseState env cid c true s, [c.webhookUrl.getD ""])
        | some false => (sweepBaseState env cid c false s, [c.webhookUrl.getD ""])
        | none => (sweepBaseState env cid c false s, [c.webhookUrl.getD ""])
      else (sweepBaseState env cid c false s, []) := by
  match hu : c.webhookUrl with
  | none =>
    simp [sweepFinish, sweepBaseState, sweptUpd, hu]
  | some url =>
    by_cases hurl : url = ""
    · subst hurl
      simp [sweepFinish, sweepBaseState, sweptUpd, hu]
    · by_cases hsent : c.webhookSent.getD false = false
      · have hcond : (some url : Option String).getD "" ≠ "" := by
          simpa using hurl
        match hwk : env.webhookOk with
        | some true =>
          simp [sweepFinish, callWebhook, sweepBaseState, sweptUpd, hu, hwk,
            hcond, hsent, persistStateNow, snapshotOf, alGet_alSet, alSet_alSet,
            hurl]
        | some false =>
          simp [sweepFinish, callWebhook, sweepBaseState, sweptUpd, hu, hwk,
            hcond, hsent, persistStateNow, snapshotOf, alGet_alSet, hurl]
        | none =>
          simp [sweepFinish, callWebhook, sweepBaseState, sweptUpd, hu, hwk,
            hcond, hsent, persistStateNow, snapshotOf, alGet_alSet, hurl]
      · simp [sweepFinish, sweepBaseState, sweptUpd, hu, hsent]

theorem sweepCharge_success_eq {env : SweepEnv} {cid : String} {s : PState}
    {c : Charge} (hget : alGet cid s.charges = some c)
    (hst : c.status ≠ ChargeStatus.swept)
    (hrecv : env.receivePendingErr = none) (hbal : env.balance ≠ 0)
    (hsend : env.sendErr = none) :
    sweepCharge env cid s = Except.ok ((sweepFinish env cid c s).1,
      some (env.sendHash, env.balance),
      { sends := [(deriveAccount s.mainAccountIndex, env.balance)],
        webhookCalls := (sweepFinish env cid c s).2 }) := by
  unfold sweepCharge
  rw [hget]
  simp [hst, hrecv, hbal, hsend]

theorem sweepCharge_ok_cases {env : SweepEnv} {cid : String} {s s' : PState}
    {r : Option (String × Nat)} {log : SweepLog}
    (h : sweepCharge env cid s = Except.ok (s', r, log)) :
    s' = s ∨
      ∃ c wh, alGet cid s.charges = some c ∧
        c.status ≠ ChargeStatus.swept ∧ env.balance ≠ 0 ∧
        s' = sweepBaseState env cid c wh s := by
  unfold sweepCharge at h
  split at h
  · exact absurd h (by simp)
  rename_i c hget
  split at h
  · rename_i hst
    simp only [Except.ok.injEq, Prod.mk.injEq] at h
    exact Or.inl h.1.symm
  rename_i hst
  split at h
  · exact absurd h (by simp)
  rename_i hrecv
  split at h
  · simp only [Except.ok.injEq, Prod.mk.injEq] at h
    exact Or.inl h.1.symm
  rename_i hbal
  split at h
  · exact absurd h (by simp)
  rename_i hsend
  simp only [Except.ok.injEq, Prod.mk.injEq] at h
  right
  refine ⟨c, ?_⟩
  rw [sweepFinish_eq] at h
  by_cases hcond : c.webhookUrl.getD "" ≠ "" ∧ c.webhookSent.getD false = false
  · rw [if_pos hcond] at h
    match hwk : env.webhookOk with
    | some true =>
      rw [hwk] at h
      exact ⟨true, hget, hst, hbal, h.1.symm⟩
    | some false =>
      rw [hwk] at h
      exact ⟨false, hget, hst, hbal, h.1.symm⟩
    | none =>
      rw [hwk] at h
      exact ⟨false, hget, hst, hbal, h.1.symm⟩
  · rw [if_neg hcond] at h
    exact ⟨false, hget, hst, hbal, h.1.symm⟩

theorem sweepOutcome_cases (senv : SweepEnv) (cid : String) (s : PState) :
    sweepOutcome senv cid s = s ∨
      ∃ c wh, alGet cid s.charges = some c ∧
        c.status ≠ ChargeStatus.swept ∧ senv.balance ≠ 0 ∧
        sweepOutcome senv cid s = sweepBaseState senv cid c wh s := by
  unfold sweepOutcome
  match hsw : sweepCharge senv cid s with
  | Except.error e => exact Or.inl rfl
  | Except.ok (s', r, log) =>
    rcases sweepCharge_ok_cases hsw with h | ⟨c, wh, h1, h2, h3, h4⟩
    · exact Or.inl h
    · exact Or.inr ⟨c, wh, h1, h2, h3, h4⟩

theorem sweptUpd_fields (env : SweepEnv) (c : Charge) (wh : Bool) :
    (sweptUpd env c wh).status = ChargeStatus.swept ∧
      (sweptUpd env c wh).sweptAt = some env.now ∧
      (sweptUpd env c wh).sweepTxHash = some env.sendHash ∧
      (sweptUpd env c wh).transactions = c.transactions ∧
      (sweptUpd env c wh).receivedRaw = c.receivedRaw ∧
      (sweptUpd env c wh).id = c.id ∧
      (sweptUpd env c wh).address = c.address ∧
      (sweptUpd env c wh).accountIndex = c.accountIndex ∧
      (sweptUpd env c wh).amountRaw = c.amountRaw ∧
      (wh = false → (sweptUpd env c wh).webhookSent = c.webhookSent) ∧
      (wh = true → (sweptUpd env c wh).webhookSent = some true) := by
  cases wh <;> simp [sweptUpd]

theorem sweepBaseState_facts (env : SweepEnv) (cid : String) (c : Charge)
    (wh : Bool) (s : PState) :
    alGet cid (sweepBaseState env cid c wh s).charges
        = some (sweptUpd env c wh) ∧
      alGet c.address (sweepBaseState env cid c wh s).addressToChargeId
        = none ∧
      c.address ∉ (sweepBaseState env cid c wh s).monitored ∧
      (sweepBaseState env cid c wh s).persisted
        = some (snapshotOf env.now (sweepBaseState env cid c wh s)) ∧
      (sweepBaseState env cid c wh s).savePending = false := by
  refine ⟨?_, ?_, ?_, ?_, rfl⟩
  · simp [sweepBaseState, persistStateNow, alGet_alSet]
  · simp [sweepBaseState, persistStateNow, alGet_alDel]
  · simp [sweepBaseState, persistStateNow, List.mem_filter]
  · simp [sweepBaseState, persistStateNow, snapshotOf]

/-- C4: a successful `sweepCharge` on an existing, not-yet-swept charge
whose post-reconciliation balance is nonzero sends the entire balance to the
main address, marks the charge swept with sweep time and transaction hash
recorded, removes its address from the address index and from the monitor,
persists the state immediately, and attempts the webhook notification
exactly when a notification URL is configured and the notification-sent
flag is not yet set. -/
theorem c4_sweep_success (env : SweepEnv) (cid : String) (s : PState)
    (c : Charge) (hget : alGet cid s.charges = some c)
    (hst : c.status ≠ ChargeStatus.swept)
    (hrecv : env.receivePendingErr = none) (hbal : env.balance ≠ 0)
    (hsend : env.sendErr = none) :
    ∃ s' calls, sweepCharge env cid s
        = Except.ok (s', some (env.sendHash, env.balance),
          { sends := [(deriveAccount s.mainAccountIndex, env.balance)],
            webhookCalls := calls }) ∧
      (∃ c', alGet cid s'.charges = some c' ∧
        c'.status = ChargeStatus.swept ∧ c'.sweptAt = some env.now ∧
        c'.sweepTxHash = some env.sendHash) ∧
      alGet c.address s'.addressToChargeId = none ∧
      c.address ∉ s'.monitored ∧
      s'.persisted = some (snapshotOf env.now s') ∧
      s'.savePending = false ∧
      (calls ≠ [] ↔
        c.webhookUrl.getD "" ≠ "" ∧ c.webhookSent.getD false = false) := by
  have hs := sweepCharge_success_eq hget hst hrecv hbal hsend
  rw [sweepFinish_eq] at hs
  by_cases hcond : c.webhookUrl.getD "" ≠ "" ∧ c.webhookSent.getD false = false
  · rw [if_pos hcond] at hs
    have main : ∀ wh : Bool,
        sweepCharge env cid s = Except.ok (sweepBaseState env cid c wh s,
          some (env.sendHash, env.balance),
          { sends := [(deriveAccount s.mainAccountIndex, env.balance)],
            webhookCalls := [c.webhookUrl.getD ""] }) →
        ∃ s' calls, sweepCharge env cid s
            = Except.ok (s', some (env.sendHash, env.balance),
              { sends := [(deriveAccount s.mainAccountIndex, env.balance)],
                webhookCalls := calls }) ∧
          (∃ c', alGet cid s'.charges = some c' ∧
            c'.status = ChargeStatus.swept ∧ c'.sweptAt = some env.now ∧
            c'.sweepTxHash = some env.sendHash) ∧
          alGet c.address s'.addressToChargeId = none ∧
          c.address ∉ s'.monitored ∧
          s'.persisted = some (snapshotOf env.now s') ∧
          s'.savePending = false ∧
          (calls ≠ [] ↔
            c.webhookUrl.getD "" ≠ "" ∧ c.webhookSent.getD false = false) := by
      intro wh hw
      obtain ⟨f1, f2, f3, f4, f5⟩ := sweepBaseState_facts env cid c wh s
      obtain ⟨g1, g2, g3, -⟩ := sweptUpd_fields env c wh
      exact ⟨sweepBaseState env cid c wh s, [c.webhookUrl.getD ""], hw,
        ⟨sweptUpd env c wh, f1, g1, g2, g3⟩, f2, f3, f4, f5,
        by simp [hcond]⟩
    match hwk : env.webhookOk with
    | some true => rw [hwk] at hs; exact main true hs
    | some false => rw [hwk] at hs; exact main false hs
    | none => rw [hwk] at hs; exact main false hs
  · rw [if_neg hcond] at hs
    obtain ⟨f1, f2, f3, f4, f5⟩ := sweepBaseState_facts env cid c false s
    obtain ⟨g1, g2, g3, -⟩ := sweptUpd_fields env c false
    exact ⟨sweepBaseState env cid c false s, [], hs,
      ⟨sweptUpd env c false, f1, g1, g2, g3⟩, f2, f3, f4, f5,
      by simp [hcond]⟩

theorem c4_sweep_success_witness :
    ∃ s' calls, sweepCharge c4env "chg_a" c1statePending
        = Except.ok (s', some (c4env.sendHash, c4env.balance),
          { sends := [(deriveAccount c1statePending.mainAccountIndex,
              c4env.balance)],
            webhookCalls := calls }) ∧
      (∃ c', alGet "chg_a" s'.charges = some c' ∧
        c'.status = ChargeStatus.swept ∧ c'.sweptAt = some c4env.now ∧
        c'.sweepTxHash = some c4env.sendHash) ∧
      alGet c4charge.address s'.addressToChargeId = none ∧
      c4charge.address ∉ s'.monitored ∧
      s'.persisted = some (snapshotOf c4env.now s') ∧
      s'.savePending = false ∧
      (calls ≠ [] ↔
        c4charge.webhookUrl.getD "" ≠ "" ∧
          c4charge.webhookSent.getD false = false) :=
  c4_sweep_success c4env "chg_a" c1statePending c4charge (by decide)
    (by decide) rfl (by decide) rfl

theorem sweepCharge_ok_log {env : SweepEnv} {cid : String} {s s' : PState}
    {r : Option (String × Nat)} {log : SweepLog}
    (h : sweepCharge env cid s = Except.ok (s', r, log)) :
    log.webhookCalls = [] ∨
      ∃ c, alGet cid s.charges = some c ∧
        log.webhookCalls = [c.webhookUrl.getD ""] ∧
        c.webhookUrl.getD "" ≠ "" ∧ c.webhookSent.getD false = false := by
  unfold sweepCharge at h
  split at h
  · exact absurd h (by simp)
  rename_i c hget
  split at h
  · simp only [Except.ok.injEq, Prod.mk.injEq] at h
    rw [← h.2.2]
    exact Or.inl rfl
  rename_i hst
  split at h
  · exact absurd h (by simp)
  split at h
  · simp only [Except.ok.injEq, Prod.mk.injEq] at h
    rw [← h.2.2]
    exact Or.inl rfl
  split at h
  · exact absurd h (by simp)
  simp only [Except.ok.injEq, Prod.mk.injEq] at h
  rw [← h.2.2]
  rw [sweepFinish_eq]
  by_cases hcond : c.webhookUrl.getD "" ≠ "" ∧ c.webhookSent.getD false = false
  · rw [if_pos hcond]
    match env.webhookOk with
    | some true => exact Or.inr ⟨c, hget, rfl, hcond.1, hcond.2⟩
    | some false => exact Or.inr ⟨c, hget, rfl, hcond.1, hcond.2⟩
    | none => exact Or.inr ⟨c, hget, rfl, hcond.1, hcond.2⟩
  · rw [if_neg hcond]
    exact Or.inl rfl

/-- C6: webhook delivery for a sweep is a single POST with no retry; a
non-success HTTP status or a transport failure never surfaces as an error
from `sweepCharge` and leaves the swept status and the notification-sent
flag untouched; a successful delivery sets the notification-sent flag with
an immediate persist; and once the charge is swept or its notification-sent
flag is set, no later sweep call POSTs again. -/
theorem c6_webhook_delivery (env : SweepEnv) (cid : String) (s : PState)
    (c : Charge) (hget : alGet cid s.charges = some c) :
    (∀ s' r log, sweepCharge env cid s = Except.ok (s', r, log) →
      log.webhookCalls.length ≤ 1) ∧
    (c.status ≠ ChargeStatus.swept → env.receivePendingErr = none →
      env.balance ≠ 0 → env.sendErr = none → env.webhookOk ≠ some true →
      ∃ s' calls, sweepCharge env cid s
          = Except.ok (s', some (env.sendHash, env.balance),
            { sends := [(deriveAccount s.mainAccountIndex, env.balance)],
              webhookCalls := calls }) ∧
        ∃ c', alGet cid s'.charges = some c' ∧
          c'.status = ChargeStatus.swept ∧ c'.webhookSent = c.webhookSent) ∧
    (c.status ≠ ChargeStatus.swept → env.receivePendingErr = none →
      env.balance ≠ 0 → env.sendErr = none → env.webhookOk = some true →
      c.webhookUrl.getD "" ≠ "" → c.webhookSent.getD false = false →
      ∃ s', sweepCharge env cid s
          = Except.ok (s', some (env.sendHash, env.balance),
            { sends := [(deriveAccount s.mainAccountIndex, env.balance)],
              webhookCalls := [c.webhookUrl.getD ""] }) ∧
        (∃ c', alGet cid s'.charges = some c' ∧
          c'.webhookSent = some true) ∧
        s'.persisted = some (snapshotOf env.now s') ∧
        s'.savePending = false) ∧
    (c.status = ChargeStatus.swept ∨ c.webhookSent = some true →
      ∀ s' r log, sweepCharge env cid s = Except.ok (s', r, log) →
        log.webhookCalls = []) := by
  refine ⟨?_, ?_, ?_, ?_⟩
  · intro s' r log h
    rcases sweepCharge_ok_log h with h1 | ⟨c2, -, h2, -, -⟩
    · simp [h1]
    · simp [h2]
  · intro hst hrecv hbal hsend hwk
    have hs := sweepCharge_success_eq hget hst hrecv hbal hsend
    rw [sweepFinish_eq] at hs
    obtain ⟨f1, -, -, -, -⟩ := sweepBaseState_facts env cid c false s
    obtain ⟨g1, -, -, -, -, -, -, -, -, gws, -⟩ := sweptUpd_fields env c false
    by_cases hcond : c.webhookUrl.getD "" ≠ "" ∧
        c.webhookSent.getD false = false
    · rw [if_pos hcond] at hs
      match hwk2 : env.webhookOk with
      | some true => exact absurd hwk2 hwk
      | some false =>
        rw [hwk2] at hs
        exact ⟨_, _, hs, sweptUpd env c false, f1, g1, gws rfl⟩
      | none =>
        rw [hwk2] at hs
        exact ⟨_, _, hs, sweptUpd env c false, f1, g1, gws rfl⟩
    · rw [if_neg hcond] at hs
      exact ⟨_, _, hs, sweptUpd env c false, f1, g1, gws rfl⟩
  · intro hst hrecv hbal hsend hwk hurl hsent
    have hs := sweepCharge_success_eq hget hst hrecv hbal hsend
    rw [sweepFinish_eq, if_pos ⟨hurl, hsent⟩, hwk] at hs
    obtain ⟨f1, -, -, f4, f5⟩ := sweepBaseState_facts env cid c true s
    obtain ⟨-, -, -, -, -, -, -, -, -, -, gws⟩ := sweptUpd_fields env c true
    exact ⟨_, hs, ⟨sweptUpd env c true, f1, gws rfl⟩, f4, f5⟩
  · intro hdone s' r log h
    rcases hdone with hsw | hsent
    · have heq : sweepCharge env cid s = Except.ok (s, none, {}) := by
        unfold sweepCharge
        rw [hget]
        simp [hsw]
      rw [heq] at h
      simp only [Except.ok.injEq, Prod.mk.injEq] at h
      rw [← h.2.2]
    · rcases sweepCharge_ok_log h with h1 | ⟨c2, hget2, -, -, hs2⟩
      · exact h1
      · rw [hget] at hget2
        cases hget2
        rw [hsent] at hs2
        simp at hs2

theorem c6_webhook_delivery_witness :
    (∀ s' r log, sweepCharge c6envFail "chg_w" c6statePending
        = Except.ok (s', r, log) → log.webhookCalls.length ≤ 1) ∧
    (∃ s' calls, sweepCharge c6envFail "chg_w" c6statePending
        = Except.ok (s', some (c6envFail.sendHash, c6envFail.balance),
          { sends := [(deriveAccount c6statePending.mainAccountIndex,
              c6envFail.balance)],
            webhookCalls := calls }) ∧
      ∃ c', alGet "chg_w" s'.charges = some c' ∧
        c'.status = ChargeStatus.swept ∧
        c'.webhookSent = c6charge.webhookSent) ∧
    (∃ s', sweepCharge c6envOk "chg_w" c6statePending
        = Except.ok (s', some (c6envOk.sendHash, c6envOk.balance),
          { sends := [(deriveAccount c6statePending.mainAccountIndex,
              c6envOk.balance)],
            webhookCalls := [c6charge.webhookUrl.getD ""] }) ∧
      (∃ c', alGet "chg_w" s'.charges = some c' ∧
        c'.webhookSent = some true) ∧
      s'.persisted = some (snapshotOf c6envOk.now s') ∧
      s'.savePending = false) ∧
    (∀ s' r log, sweepCharge c6envFail "chg_w" c6stateSwept
        = Except.ok (s', r, log) → log.webhookCalls = []) :=
  ⟨(c6_webhook_delivery c6envFail "chg_w" c6statePending c6charge
      (by decide)).1,
    (c6_webhook_delivery c6envFail "chg_w" c6statePending c6charge
      (by decide)).2.1 (by decide) rfl (by decide) rfl (by decide),
    (c6_webhook_delivery c6envOk "chg_w" c6statePending c6charge
      (by decide)).2.2.1 (by decide) rfl (by decide) rfl rfl (by decide)
      (by decide),
    (c6_webhook_delivery c6envFail "chg_w" c6stateSwept c6chargeSwept
      (by decide)).2.2.2 (Or.inl (by decide))⟩

theorem mem_alSet {β : Type _} {p : String × β} {k : String} {v : β} :
    ∀ {l : List (String × β)}, p ∈ alSet k v l → p = (k, v) ∨ p ∈ l := by
  intro l
  induction l with
  | nil => intro h; simp [alSet] at h; exact Or.inl h
  | cons q rest ih =>
    intro h
    obtain ⟨k0, v0⟩ := q
    unfold alSet at h
    by_cases h0 : k0 = k
    · rw [if_pos h0] at h
      rcases List.mem_cons.mp h with h1 | h1
      · exact Or.inl h1
      · exact Or.inr (List.mem_cons_of_mem _ h1)
    · rw [if_neg h0] at h
      rcases List.mem_cons.mp h with h1 | h1
      · exact Or.inr (h1 ▸ List.mem_cons_self _ _)
      · rcases ih h1 with h2 | h2
        · exact Or.inl h2
        · exact Or.inr (List.mem_cons_of_mem _ h2)

theorem mem_alDel {β : Type _} {p : String × β} {k : String} :
    ∀ {l : List (String × β)}, p ∈ alDel k l → p ∈ l := by
  intro l
  induction l with
  | nil => intro h; simp [alDel] at h
  | cons q rest ih =>
    intro h
    obtain ⟨k0, v0⟩ := q
    unfold alDel at h
    by_cases h0 : k0 = k
    · rw [if_pos h0] at h
      exact List.mem_cons_of_mem _ (ih h)
    · rw [if_neg h0] at h
      rcases List.mem_cons.mp h with h1 | h1
      · exact h1 ▸ List.mem_cons_self _ _
      · exact List.mem_cons_of_mem _ (ih h1)

theorem alGet_mem {β : Type _} {k : String} {v : β} :
    ∀ {l : List (String × β)}, alGet k l = some v → (k, v) ∈ l := by
  intro l
  induction l with
  | nil => intro h; simp [alGet] at h
  | cons q rest ih =>
    intro h
    obtain ⟨k0, v0⟩ := q
    unfold alGet at h
    by_cases h0 : k0 = k
    · rw [if_pos h0] at h
      cases h
      exact h0 ▸ List.mem_cons_self _ _
    · rw [if_neg h0] at h
      exact List.mem_cons_of_mem _ (ih h)

theorem sumAmounts_append (l : List PaymentTransaction)
    (t : PaymentTransaction) :
    sumAmounts (l ++ [t]) = sumAmounts l + t.amountRaw := by
  simp [sumAmounts]

theorem foldl_preserve {σ α : Type _} (P : σ → Prop) (f : σ → α → σ)
    (hf : ∀ st a, P st → P (f st a)) :
    ∀ (l : List α) (st : σ), P st → P (l.foldl f st) := by
  intro l
  induction l with
  | nil => intro st h; exact h
  | cons a rest ih =>
    intro st h
    exact ih _ (hf st a h)

theorem allConsistentL_alSet {l : List (String × Charge)} {k : String}
    {c : Charge} (hl : AllConsistentL l) (hc : chargeConsistent c) :
    AllConsistentL (alSet k c l) := by
  intro p hp
  rcases mem_alSet hp with h | h
  · rw [h]; exact hc
  · exact hl p h

theorem chargeConsistent_sweptUpd {env : SweepEnv} {c : Charge} {wh : Bool}
    (h : chargeConsistent c) : chargeConsistent (sweptUpd env c wh) := by
  obtain ⟨-, -, -, g4, g5, -⟩ := sweptUpd_fields env c wh
  unfold chargeConsistent at h ⊢
  rw [g4, g5]
  exact h

theorem allConsistent_sweepOutcome (senv : SweepEnv) (cid : String)
    {s : PState} (h : AllConsistent s) :
    AllConsistent (sweepOutcome senv cid s) := by
  rcases sweepOutcome_cases senv cid s with heq | ⟨c, wh, hget, -, -, heq⟩
  · rw [heq]; exact h
  · rw [heq]
    show AllConsistentL (alSet cid (sweptUpd senv c wh) s.charges)
    exact allConsistentL_alSet h
      (chargeConsistent_sweptUpd (h _ (alGet_mem hget)))

theorem allConsistent_handlePayment (env : PaymentEnv) (p : PaymentEvent)
    {s : PState} (h : AllConsistent s) :
    AllConsistent (handlePayment env p s) := by
  unfold handlePayment
  split
  · exact h
  rename_i cid hcid
  split
  · exact h
  split
  · exact h
  rename_i c hc
  split
  · exact h
  rename_i hterm
  have hcons : chargeConsistent c := h _ (alGet_mem hc)
  dsimp only
  split
  · rename_i hfull
    have hc2 : AllConsistent (persistStateNow env.now
        { s with charges := alSet cid { c with
                transactions := c.transactions ++ [payTx p],
                receivedRaw := c.receivedRaw + p.amount,
                receivedNano := rawToNano (c.receivedRaw + p.amount),
                status := ChargeStatus.completed,
                completedAt := some env.now } s.charges }) := by
      show AllConsistentL (alSet cid _ s.charges)
      apply allConsistentL_alSet h
      unfold chargeConsistent at hcons ⊢
      simp only
      rw [sumAmounts_append, hcons]
      rfl
    split
    · exact allConsistent_sweepOutcome _ _ hc2
    · exact hc2
  · rename_i hfull
    show AllConsistentL (alSet cid _ s.charges)
    apply allConsistentL_alSet h
    unfold chargeConsistent at hcons ⊢
    simp only
    rw [sumAmounts_append, hcons]

theorem allConsistent_applyRecoveryItem (now : Nat) (cid : String)
    (it : RecoveryItem) {s : PState} (h : AllConsistent s) :
    AllConsistent (applyRecoveryItem now cid it s) := by
  unfold applyRecoveryItem
  split
  · exact h
  split
  · exact h
  rename_i c hc
  show AllConsistentL (alSet cid _ s.charges)
  apply allConsistentL_alSet h
  have hcons : chargeConsistent c := h _ (alGet_mem hc)
  unfold chargeConsistent at hcons ⊢
  simp only
  rw [sumAmounts_append, hcons]

theorem allConsistent_recoverFinish (env : RecoveryEnv) (cid : String)
    {s1 : PState} (h1 : AllConsistent s1) :
    AllConsistent (recoverFinish env cid s1) := by
  unfold recoverFinish
  split
  · exact h1
  rename_i charge hcharge
  have hcons : chargeConsistent charge := h1 _ (alGet_mem hcharge)
  split
  · unfold recoverSweep
    have hc2 : AllConsistentL (alSet cid { charge with
        status := ChargeStatus.completed,
        completedAt := some env.now } s1.charges) :=
      allConsistentL_alSet h1 hcons
    split
    · exact allConsistent_sweepOutcome _ _ hc2
    · exact hc2
  · split
    · show AllConsistentL (alSet cid _ _)
      exact allConsistentL_alSet h1 hcons
    · exact h1

theorem allConsistent_recoverCharge (env : RecoveryEnv) (cid : String)
    {s : PState} (h : AllConsistent s) :
    AllConsistent (recoverCharge env cid s) := by
  unfold recoverCharge
  split
  · exact h
  exact allConsistent_recoverFinish env cid
    (foldl_preserve AllConsistent _
      (fun st a ha => allConsistent_applyRecoveryItem env.now cid a ha) _ _ h)

theorem allConsistent_checkMissedPayments (envOf : String → RecoveryEnv)
    {s : PState} (h : AllConsistent s) :
    AllConsistent (checkMissedPayments envOf s) :=
  foldl_preserve AllConsistent _
    (fun st id hst => allConsistent_recoverCharge (envOf id) id hst) _ _ h

theorem allConsistent_expireStep (now : Nat)
    (acc : PState × Bool × List String) (id : String)
    (ha : AllConsistent acc.1) : AllConsistent (expireStep now acc id).1 := by
  unfold expireStep
  split
  · exact ha
  rename_i c hc
  split
  · split
    · show AllConsistentL (alSet id _ acc.1.charges)
      exact allConsistentL_alSet ha (ha _ (alGet_mem hc))
    · show AllConsistentL (alSet id _ acc.1.charges)
      exact allConsistentL_alSet ha (ha _ (alGet_mem hc))
  · exact ha

theorem allConsistent_expirePass (now : Nat) {s : PState}
    (h : AllConsistent s) : AllConsistent (expirePass now s).1 := by
  unfold expirePass
  exact foldl_preserve
    (fun acc : PState × Bool × List String => AllConsistent acc.1) _
    (fun acc id ha => allConsistent_expireStep now acc id ha)
    (s.charges.map (·.1)) (s, false, []) h

theorem allConsistent_checkExpiredCharges (now : Nat)
    (envOf : String → SweepEnv) {s : PState} (h : AllConsistent s) :
    AllConsistent (checkExpiredCharges now envOf s) := by
  unfold checkExpiredCharges
  dsimp only
  apply foldl_preserve AllConsistent _
    (fun st id hst => allConsistent_sweepOutcome (envOf id) id hst)
  split
  · exact allConsistent_expirePass now h
  · exact allConsistent_expirePass now h

theorem allConsistent_createCharge (env : CreateEnv)
    (opts : CreateChargeOptions) {s : PState} (h : AllConsistent s) :
    AllConsistent (createCharge env opts s).1 := by
  show AllConsistentL (alSet env.id _ s.charges)
  apply allConsistentL_alSet h
  show (0 : Nat) = sumAmounts []
  rfl

theorem allConsistent_step (op : Op) {s : PState} (h : AllConsistent s) :
    AllConsistent (step op s) := by
  cases op with
  | create env opts => exact allConsistent_createCharge env opts h
  | payment env p => exact allConsistent_handlePayment env p h
  | sweep env id => exact allConsistent_sweepOutcome env id h
  | expiry now envOf => exact allConsistent_checkExpiredCharges now envOf h
  | recovery envOf => exact allConsistent_checkMissedPayments envOf h
  | deleteOp id =>
    show AllConsistent (match deleteCharge id s with
      | Except.ok (s', _) => s'
      | Except.error _ => s)
    match hd : deleteCharge id s with
    | Except.error e => exact h
    | Except.ok (s', b) =>
      unfold deleteCharge at hd
      split at hd
      · simp only [Except.ok.injEq, Prod.mk.injEq] at hd
        rw [← hd.1]
        exact h
      rename_i c hc
      split at hd
      · exact absurd hd (by simp)
      · simp only [Except.ok.injEq, Prod.mk.injEq] at hd
        rw [← hd.1]
        intro p hp
        exact h p (mem_alDel hp)
  | cleanup =>
    show AllConsistent (cleanupSweptCharges s).1
    unfold cleanupSweptCharges
    dsimp only
    split
    · intro p hp
      have hp' : p ∈ s.charges.filter
          (fun q => ¬(q.2.status = ChargeStatus.swept)) := hp
      exact h p (List.mem_filter.mp hp').1
    · intro p hp
      have hp' : p ∈ s.charges.filter
          (fun q => ¬(q.2.status = ChargeStatus.swept)) := hp
      exact h p (List.mem_filter.mp hp').1

theorem allConsistent_run (ops : List Op) {s : PState}
    (h : AllConsistent s) : AllConsistent (run ops s) :=
  foldl_preserve AllConsistent _ (fun st op hst => allConsistent_step op hst)
    _ _ h

theorem handlePayment_appends (env : PaymentEnv) (p : PaymentEvent)
    (s : PState) (cid : String) (c : Charge)
    (hcid : alGet p.toAddr s.addressToChargeId = some cid) (hne : cid ≠ "")
    (hc : alGet cid s.charges = some c)
    (hterm : ¬(c.status = ChargeStatus.completed ∨
      c.status = ChargeStatus.expired ∨ c.status = ChargeStatus.swept)) :
    ∃ c', alGet cid (handlePayment env p s).charges = some c' ∧
      c'.transactions = c.transactions ++ [payTx p] ∧
      c'.receivedRaw = c.receivedRaw + p.amount := by
  unfold handlePayment
  simp only [hcid]
  rw [if_neg hne]
  simp only [hc]
  rw [if_neg hterm]
  split
  · rename_i hfull
    set charge2 : Charge := { c with
      transactions := c.transactions ++
        [{ hash := p.hash, sender := p.sender, amountRaw := p.amount,
           amountNano := p.amountNano, timestamp := p.timestamp }],
      receivedRaw := c.receivedRaw + p.amount,
      receivedNano := rawToNano (c.receivedRaw + p.amount),
      status := ChargeStatus.completed,
      completedAt := some env.now } with hcharge2
    set s1 : PState := persistStateNow env.now
      { s with charges := alSet cid charge2 s.charges } with hs1
    have htx : charge2.transactions = c.transactions ++ [payTx p] := by
      simp [hcharge2, payTx]
    have hrec : charge2.receivedRaw = c.receivedRaw + p.amount := by
      simp [hcharge2]
    have hget1 : alGet cid s1.charges = some charge2 := by
      show alGet cid (alSet cid charge2 s.charges) = some charge2
      simp [alGet_alSet]
    split
    · rcases sweepOutcome_cases env.sweepEnv c.id s1 with heq | ⟨c2, wh, hget2, -, -, heq⟩
      · rw [heq]
        exact ⟨charge2, hget1, htx, hrec⟩
      · rw [heq]
        by_cases hii : c.id = cid
        · subst hii
          rw [hget1] at hget2
          cases hget2
          obtain ⟨-, -, -, g4, g5, -⟩ := sweptUpd_fields env.sweepEnv charge2 wh
          refine ⟨sweptUpd env.sweepEnv charge2 wh, ?_, ?_, ?_⟩
          · show alGet c.id (alSet c.id _ s1.charges) = _
            simp [alGet_alSet]
          · exact g4.trans htx
          · exact g5.trans hrec
        · refine ⟨charge2, ?_, htx, hrec⟩
          show alGet cid (alSet c.id _ s1.charges) = _
          rw [alGet_alSet, if_neg hii]
          exact hget1
    · exact ⟨charge2, hget1, htx, hrec⟩
  · rename_i hfull
    refine ⟨{ c with
        transactions := c.transactions ++
          [{ hash := p.hash, sender := p.sender, amountRaw := p.amount,
             amountNano := p.amountNano, timestamp := p.timestamp }],
        receivedRaw := c.receivedRaw + p.amount,
        receivedNano := rawToNano (c.receivedRaw + p.amount),
        status := ChargeStatus.part }, ?_, rfl, rfl⟩
    show alGet cid (alSet cid _ s.charges) = _
    simp [alGet_alSet]

/-- C2: starting from any consistent state (a fresh processor is one),
every reachable state keeps each charge's cumulative `receivedRaw` equal to
the sum of the `amountRaw` fields of its transaction list, and applying a
payment to an active charge appends exactly one transaction entry and
increases `receivedRaw` by exactly that entry's amount. -/
theorem c2_received_equals_sum (ops : List Op) (s : PState) :
    (∀ cfg, AllConsistent (initProcessor cfg none)) ∧
    (AllConsistent s → AllConsistent (run ops s)) ∧
    (∀ (env : PaymentEnv) (p : PaymentEvent) (cid : String) (c : Charge),
      alGet p.toAddr s.addressToChargeId = some cid → cid ≠ "" →
      alGet cid s.charges = some c →
      ¬(c.status = ChargeStatus.completed ∨
        c.status = ChargeStatus.expired ∨ c.status = ChargeStatus.swept) →
      ∃ c', alGet cid (handlePayment env p s).charges = some c' ∧
        c'.transactions = c.transactions ++ [payTx p] ∧
        c'.receivedRaw = c.receivedRaw + p.amount) := by
  refine ⟨?_, fun h => allConsistent_run ops h, ?_⟩
  · intro cfg
    intro p hp
    simp [initProcessor, loadPersistedState] at hp
  · intro env p cid c hcid hne hc hterm
    exact handlePayment_appends env p s cid c hcid hne hc hterm

theorem c2_received_equals_sum_witness :
    AllConsistent (run [Op.payment c2payEnv c2payEvt] c1statePending) ∧
    ∃ c', alGet "chg_a"
          (handlePayment c2payEnv c2payEvt c1statePending).charges
        = some c' ∧
      c'.transactions = c4charge.transactions ++ [payTx c2payEvt] ∧
      c'.receivedRaw = c4charge.receivedRaw + c2payEvt.amount :=
  ⟨(c2_received_equals_sum [Op.payment c2payEnv c2payEvt]
      c1statePending).2.1 (by decide),
    (c2_received_equals_sum [] c1statePending).2.2 c2payEnv c2payEvt
      "chg_a" c4charge (by decide) (by decide) (by decide) (by decide)⟩

theorem stepStatusOk_refl (z : Bool) (a : ChargeStatus) :
    stepStatusOk z a a = true := by
  simp [stepStatusOk]

theorem stepStatusOk_active_part {z : Bool} {a : ChargeStatus}
    (ha : a = ChargeStatus.pending ∨ a = ChargeStatus.part) :
    stepStatusOk z a ChargeStatus.part = true := by
  rcases ha with h | h <;> subst h <;> cases z <;> decide

theorem stepStatusOk_active_completed {z : Bool} {a : ChargeStatus}
    (ha : a = ChargeStatus.pending ∨ a = ChargeStatus.part) :
    stepStatusOk z a ChargeStatus.completed = true := by
  rcases ha with h | h <;> subst h <;> cases z <;> decide

theorem stepStatusOk_active_expired {z : Bool} {a : ChargeStatus}
    (ha : a = ChargeStatus.pending ∨ a = ChargeStatus.part) :
    stepStatusOk z a ChargeStatus.expired = true := by
  rcases ha with h | h <;> subst h <;> cases z <;> decide

theorem stepStatusOk_swept {z : Bool} {a : ChargeStatus}
    (ha : a ≠ ChargeStatus.swept) (hz : z = true) :
    stepStatusOk z a ChargeStatus.swept = true := by
  subst hz
  cases a with
  | swept => exact absurd rfl ha
  | pending => decide
  | part => decide
  | completed => decide
  | expired => decide

/-- A non-terminal status (the `handlePayment` guard) is pending or
partial. -/
theorem status_active_of_not_terminal {a : ChargeStatus}
    (h : ¬(a = ChargeStatus.completed ∨ a = ChargeStatus.expired ∨
      a = ChargeStatus.swept)) :
    a = ChargeStatus.pending ∨ a = ChargeStatus.part := by
  cases a <;> simp_all

theorem keys_mem_alSet {β : Type _} {x k : String} {v : β}
    {l : List (String × β)} (h : x ∈ (alSet k v l).map Prod.fst) :
    x = k ∨ x ∈ l.map Prod.fst := by
  rcases List.mem_map.mp h with ⟨p, hp, hx⟩
  rcases mem_alSet hp with h1 | h1
  · left
    rw [← hx, h1]
  · right
    exact List.mem_map.mpr ⟨p, h1, hx⟩

theorem keyNodupL_alSet {k : String} {v : Charge}
    {l : List (String × Charge)} (h : KeyNodupL l) :
    KeyNodupL (alSet k v l) := by
  induction l with
  | nil => simp [alSet, KeyNodupL]
  | cons p rest ih =>
    obtain ⟨k0, v0⟩ := p
    unfold KeyNodupL at h ⊢
    simp only [List.map_cons, List.nodup_cons] at h
    unfold alSet
    by_cases h0 : k0 = k
    · rw [if_pos h0]
      simp only [List.map_cons, List.nodup_cons]
      exact ⟨h0 ▸ h.1, h.2⟩
    · rw [if_neg h0]
      simp only [List.map_cons, List.nodup_cons]
      refine ⟨?_, ih h.2⟩
      intro hmem
      rcases keys_mem_alSet hmem with h1 | h1
      · exact h0 h1
      · exact h.1 h1

theorem wellKeyedL_alSet {k : String} {c : Charge}
    {l : List (String × Charge)} (h : WellKeyedL l) (hc : c.id = k) :
    WellKeyedL (alSet k c l) := by
  intro p hp
  rcases mem_alSet hp with h1 | h1
  · rw [h1]
    exact hc
  · exact h p h1

theorem wellKeyedL_of_alGet {k : String} {c : Charge}
    {l : List (String × Charge)} (h : WellKeyedL l)
    (hget : alGet k l = some c) : c.id = k :=
  h (k, c) (alGet_mem hget)

/-- The per-key effect of `sweepOutcome`: every charge survives, unchanged
unless it is the sweep's target, in which case it may become the swept
update — and only with a nonzero reconciled balance. -/
theorem sweepOutcome_step (env : SweepEnv) (id0 : String) (s : PState)
    (k : String) (c : Charge) (hget : alGet k s.charges = some c) :
    ∃ c', alGet k (sweepOutcome env id0 s).charges = some c' ∧
      (c' = c ∨ (k = id0 ∧ c.status ≠ ChargeStatus.swept ∧
        env.balance ≠ 0 ∧ ∃ wh, c' = sweptUpd env c wh)) := by
  rcases sweepOutcome_cases env id0 s with heq | ⟨c0, wh, hget0, hst0, hbal, heq⟩
  · rw [heq]
    exact ⟨c, hget, Or.inl rfl⟩
  · rw [heq]
    by_cases hk : k = id0
    · subst hk
      rw [hget] at hget0
      cases hget0
      refine ⟨sweptUpd env c wh, ?_, Or.inr ⟨rfl, hst0, hbal, wh, rfl⟩⟩
      show alGet k (alSet k _ s.charges) = _
      simp [alGet_alSet]
    · refine ⟨c, ?_, Or.inl rfl⟩
      show alGet k (alSet id0 _ s.charges) = _
      rw [alGet_alSet, if_neg (fun h => hk h.symm)]
      exact hget

theorem wellKeyed_sweepOutcome (env : SweepEnv) (id0 : String) {s : PState}
    (h : WellKeyed s) : WellKeyed (sweepOutcome env id0 s) := by
  rcases sweepOutcome_cases env id0 s with heq | ⟨c0, wh, hget0, -, -, heq⟩
  · rw [heq]; exact h
  · rw [heq]
    show WellKeyedL (alSet id0 _ s.charges)
    apply wellKeyedL_alSet h
    obtain ⟨-, -, -, -, -, g6, -⟩ := sweptUpd_fields env c0 wh
    rw [g6]
    exact wellKeyedL_of_alGet h hget0

theorem keyNodup_sweepOutcome (env : SweepEnv) (id0 : String) {s : PState}
    (h : KeyNodup s) : KeyNodup (sweepOutcome env id0 s) := by
  rcases sweepOutcome_cases env id0 s with heq | ⟨c0, wh, hget0, -, -, heq⟩
  · rw [heq]; exact h
  · rw [heq]
    exact keyNodupL_alSet h

/-- The per-key status effect of `handlePayment`: every charge survives and
its status moves by at most one permitted step, a jump to `swept` occurring
only with a nonzero reconciled balance. -/
theorem handlePayment_step (env : PaymentEnv) (p : PaymentEvent)
    (s : PState) (k : String) (c : Charge)
    (hget : alGet k s.charges = some c) :
    ∃ c', alGet k (handlePayment env p s).charges = some c' ∧
      stepStatusOk (env.sweepEnv.balance != 0) c.status c'.status = true := by
  unfold handlePayment
  split
  · exact ⟨c, hget, stepStatusOk_refl _ _⟩
  rename_i cid hcid
  split
  · exact ⟨c, hget, stepStatusOk_refl _ _⟩
  split
  · exact ⟨c, hget, stepStatusOk_refl _ _⟩
  rename_i c0 hc0
  split
  · exact ⟨c, hget, stepStatusOk_refl _ _⟩
  rename_i hterm
  have hact := status_active_of_not_terminal hterm
  dsimp only
  split
  · rename_i hfull
    set charge2 : Charge := { c0 with
      transactions := c0.transactions ++
        [{ hash := p.hash, sender := p.sender, amountRaw := p.amount,
           amountNano := p.amountNano, timestamp := p.timestamp }],
      receivedRaw := c0.receivedRaw + p.amount,
      receivedNano := rawToNano (c0.receivedRaw + p.amount),
      status := ChargeStatus.completed,
      completedAt := some env.now } with hcharge2
    set s1 : PState := persistStateNow env.now
      { s with charges := alSet cid charge2 s.charges } with hs1
    have hs1get : ∀ k' c', alGet k' s.charges = some c' →
        ∃ cm, alGet k' s1.charges = some cm ∧
          (cm = c' ∨ (k' = cid ∧ cm = charge2)) := by
      intro k' c' hk'
      by_cases hkc : k' = cid
      · subst hkc
        refine ⟨charge2, ?_, Or.inr ⟨rfl, rfl⟩⟩
        show alGet k' (alSet k' charge2 s.charges) = _
        simp [alGet_alSet]
      · refine ⟨c', ?_, Or.inl rfl⟩
        show alGet k' (alSet cid charge2 s.charges) = _
        rw [alGet_alSet, if_neg (fun h => hkc h.symm)]
        exact hk'
    split
    · obtain ⟨cm, hcm, hcmd⟩ := hs1get k c hget
      obtain ⟨c', hc', hc'd⟩ := sweepOutcome_step env.sweepEnv c0.id s1 k cm hcm
      refine ⟨c', hc', ?_⟩
      rcases hcmd with h1 | ⟨hkcid, h1⟩
      · subst h1
        rcases hc'd with h2 | ⟨-, hst, hbal, wh, h2⟩
        · subst h2
          exact stepStatusOk_refl _ _
        · subst h2
          obtain ⟨g1, -⟩ := sweptUpd_fields env.sweepEnv cm wh
          rw [g1]
          exact stepStatusOk_swept hst (by simpa using hbal)
      · subst hkcid
        rw [hget] at hc0
        cases hc0
        subst h1
        rcases hc'd with h2 | ⟨-, hst, hbal, wh, h2⟩
        · subst h2
          exact stepStatusOk_active_completed hact
        · subst h2
          obtain ⟨g1, -⟩ := sweptUpd_fields env.sweepEnv charge2 wh
          rw [g1]
          rcases hact with h3 | h3 <;> rw [h3] <;>
            exact stepStatusOk_swept (by decide) (by simpa using hbal)
    · obtain ⟨cm, hcm, hcmd⟩ := hs1get k c hget
      refine ⟨cm, hcm, ?_⟩
      rcases hcmd with h1 | ⟨hkcid, h1⟩
      · subst h1
        exact stepStatusOk_refl _ _
      · subst hkcid
        rw [hget] at hc0
        cases hc0
        subst h1
        exact stepStatusOk_active_completed hact
  · rename_i hfull
    by_cases hkc : k = cid
    · subst hkc
      rw [hget] at hc0
      cases hc0
      refine ⟨{ c with
          transactions := c.transactions ++
            [{ hash := p.hash, sender := p.sender, amountRaw := p.amount,
               amountNano := p.amountNano, timestamp := p.timestamp }],
          receivedRaw := c.receivedRaw + p.amount,
          receivedNano := rawToNano (c.receivedRaw + p.amount),
          status := ChargeStatus.part }, ?_, ?_⟩
      · show alGet k (alSet k _ s.charges) = _
        simp [alGet_alSet]
      · exact stepStatusOk_active_part hact
    · refine ⟨c, ?_, stepStatusOk_refl _ _⟩
      show alGet k (alSet cid _ s.charges) = _
      rw [alGet_alSet, if_neg (fun h => hkc h.symm)]
      exact hget

theorem wellKeyed_handlePayment (env : PaymentEnv) (p : PaymentEvent)
    {s : PState} (h : WellKeyed s) : WellKeyed (handlePayment env p s) := by
  unfold handlePayment
  split
  · exact h
  rename_i cid hcid
  split
  · exact h
  split
  · exact h
  rename_i c0 hc0
  split
  · exact h
  have hid : c0.id = cid := wellKeyedL_of_alGet h hc0
  dsimp only
  split
  · split
    · apply wellKeyed_sweepOutcome
      show WellKeyedL (alSet cid _ s.charges)
      exact wellKeyedL_alSet h hid
    · show WellKeyedL (alSet cid _ s.charges)
      exact wellKeyedL_alSet h hid
  · show WellKeyedL (alSet cid _ s.charges)
    exact wellKeyedL_alSet h hid

theorem keyNodup_handlePayment (env : PaymentEnv) (p : PaymentEvent)
    {s : PState} (h : KeyNodup s) : KeyNodup (handlePayment env p s) := by
  unfold handlePayment
  split
  · exact h
  rename_i cid hcid
  split
  · exact h
  split
  · exact h
  rename_i c0 hc0
  split
  · exact h
  dsimp only
  split
  · split
    · apply keyNodup_sweepOutcome
      exact keyNodupL_alSet h
    · exact keyNodupL_alSet h
  · exact keyNodupL_alSet h

/-- Per-key effect of the deferred sweep loop: each charge is unchanged or
becomes swept, the latter only from a non-swept status with a nonzero
balance reported for that key's environment. -/
theorem sweepFoldl_step (envOf : String → SweepEnv) :
    ∀ (ids : List String) (st : PState) (k : String) (c : Charge),
      alGet k st.charges = some c →
      ∃ c', alGet k
          ((ids.foldl (fun st id => sweepOutcome (envOf id) id st) st)).charges
          = some c' ∧
        (c' = c ∨ (c.status ≠ ChargeStatus.swept ∧ (envOf k).balance ≠ 0 ∧
          c'.status = ChargeStatus.swept)) := by
  intro ids
  induction ids with
  | nil =>
    intro st k c hget
    exact ⟨c, hget, Or.inl rfl⟩
  | cons a rest ih =>
    intro st k c hget
    obtain ⟨c1, hc1, hc1d⟩ := sweepOutcome_step (envOf a) a st k c hget
    obtain ⟨c', hc', hc'd⟩ := ih (sweepOutcome (envOf a) a st) k c1 hc1
    refine ⟨c', hc', ?_⟩
    rcases hc1d with h1 | ⟨hka, hst, hbal, wh, h1⟩
    · subst h1
      exact hc'd
    · subst hka
      subst h1
      obtain ⟨g1, -⟩ := sweptUpd_fields (envOf k) c wh
      rcases hc'd with h2 | ⟨h2, -⟩
      · subst h2
        exact Or.inr ⟨hst, hbal, g1⟩
      · exact absurd g1 h2

theorem expireStep_key (now : Nat) (acc : PState × Bool × List String)
    (id k : String) (c : Charge) (hget : alGet k acc.1.charges = some c) :
    ∃ cm, alGet k (expireStep now acc id).1.charges = some cm ∧
      (cm = c ∨ ((c.status = ChargeStatus.pending ∨
        c.status = ChargeStatus.part) ∧
        cm = { c with status := ChargeStatus.expired })) := by
  unfold expireStep
  split
  · exact ⟨c, hget, Or.inl rfl⟩
  rename_i c0 hc0
  split
  · rename_i hguard
    by_cases hk : k = id
    · subst hk
      rw [hget] at hc0
      cases hc0
      split
      · refine ⟨{ c with status := ChargeStatus.expired }, ?_,
          Or.inr ⟨hguard.1, rfl⟩⟩
        show alGet k (alSet k _ acc.1.charges) = _
        simp [alGet_alSet]
      · refine ⟨{ c with status := ChargeStatus.expired }, ?_,
          Or.inr ⟨hguard.1, rfl⟩⟩
        show alGet k (alSet k _ acc.1.charges) = _
        simp [alGet_alSet]
    · split
      · refine ⟨c, ?_, Or.inl rfl⟩
        show alGet k (alSet id _ acc.1.charges) = _
        rw [alGet_alSet, if_neg (fun h => hk h.symm)]
        exact hget
      · refine ⟨c, ?_, Or.inl rfl⟩
        show alGet k (alSet id _ acc.1.charges) = _
        rw [alGet_alSet, if_neg (fun h => hk h.symm)]
        exact hget
  · exact ⟨c, hget, Or.inl rfl⟩

theorem expireFoldl_key (now : Nat) :
    ∀ (ids : List String) (acc : PState × Bool × List String) (k : String)
      (c : Charge), alGet k acc.1.charges = some c →
      ∃ cm, alGet k ((ids.foldl (expireStep now) acc)).1.charges = some cm ∧
        (cm = c ∨ ((c.status = ChargeStatus.pending ∨
          c.status = ChargeStatus.part) ∧
          cm = { c with status := ChargeStatus.expired })) := by
  intro ids
  induction ids with
  | nil =>
    intro acc k c hget
    exact ⟨c, hget, Or.inl rfl⟩
  | cons a rest ih =>
    intro acc k c hget
    obtain ⟨c1, hc1, hc1d⟩ := expireStep_key now acc a k c hget
    obtain ⟨cm, hcm, hcmd⟩ := ih (expireStep now acc a) k c1 hc1
    refine ⟨cm, hcm, ?_⟩
    rcases hc1d with h1 | ⟨hact, h1⟩
    · subst h1
      exact hcmd
    · subst h1
      rcases hcmd with h2 | ⟨h2, -⟩
      · subst h2
        exact Or.inr ⟨hact, rfl⟩
      · rcases h2 with h3 | h3 <;> simp at h3

theorem wellKeyed_expireStep (now : Nat) (acc : PState × Bool × List String)
    (id : String) (h : WellKeyedL acc.1.charges) :
    WellKeyedL (expireStep now acc id).1.charges := by
  unfold expireStep
  split
  · exact h
  rename_i c0 hc0
  have hid0 : c0.id = id := wellKeyedL_of_alGet h hc0
  have hid : ({ c0 with status := ChargeStatus.expired } : Charge).id = id :=
    hid0
  split
  · split
    · exact wellKeyedL_alSet h hid
    · exact wellKeyedL_alSet h hid
  · exact h

theorem keyNodup_expireStep (now : Nat) (acc : PState × Bool × List String)
    (id : String) (h : KeyNodupL acc.1.charges) :
    KeyNodupL (expireStep now acc id).1.charges := by
  unfold expireStep
  split
  · exact h
  rename_i c0 hc0
  split
  · split
    · exact keyNodupL_alSet h
    · exact keyNodupL_alSet h
  · exact h

/-- Per-key status effect of one full expiry pass. -/
theorem checkExpired_step (now : Nat) (envOf : String → SweepEnv)
    (s : PState) (k : String) (c : Charge)
    (hget : alGet k s.charges = some c) :
    ∃ c', alGet k (checkExpiredCharges now envOf s).charges = some c' ∧
      stepStatusOk ((envOf k).balance != 0) c.status c'.status = true := by
  unfold checkExpiredCharges
  obtain ⟨cm, hcm, hcmd⟩ := expireFoldl_key now (s.charges.map (·.1))
    (s, false, []) k c hget
  have hcm2 : alGet k (if (expirePass now s).2.1
      then persistState (expirePass now s).1
      else (expirePass now s).1).charges = some cm := by
    split
    · exact hcm
    · exact hcm
  obtain ⟨c', hc', hc'd⟩ := sweepFoldl_step envOf (expirePass now s).2.2 _ k cm hcm2
  refine ⟨c', hc', ?_⟩
  rcases hcmd with h1 | ⟨hact, h1⟩
  · subst h1
    rcases hc'd with h2 | ⟨hst, hbal, hsw⟩
    · subst h2
      exact stepStatusOk_refl _ _
    · rw [hsw]
      exact stepStatusOk_swept hst (by simpa using hbal)
  · subst h1
    rcases hc'd with h2 | ⟨-, hbal, hsw⟩
    · subst h2
      exact stepStatusOk_active_expired hact
    · rw [hsw]
      refine stepStatusOk_swept ?_ (by simpa using hbal)
      rcases hact with h3 | h3 <;> rw [h3] <;> decide
  -- note: alGet over `persistState` is definitionally over the same charges

theorem wellKeyed_checkExpired (now : Nat) (envOf : String → SweepEnv)
    {s : PState} (h : WellKeyed s) :
    WellKeyed (checkExpiredCharges now envOf s) := by
  unfold checkExpiredCharges
  have h1 : WellKeyedL (expirePass now s).1.charges := by
    unfold expirePass
    exact foldl_preserve
      (fun acc : PState × Bool × List String => WellKeyedL acc.1.charges) _
      (fun acc a ha => wellKeyed_expireStep now acc a ha) _ _ h
  have h2 : WellKeyed (if (expirePass now s).2.1
      then persistState (expirePass now s).1
      else (expirePass now s).1) := by
    split
    · exact h1
    · exact h1
  exact foldl_preserve WellKeyed _
    (fun st a ha => wellKeyed_sweepOutcome (envOf a) a ha) _ _ h2

theorem keyNodup_checkExpired (now : Nat) (envOf : String → SweepEnv)
    {s : PState} (h : KeyNodup s) :
    KeyNodup (checkExpiredCharges now envOf s) := by
  unfold checkExpiredCharges
  have h1 : KeyNodupL (expirePass now s).1.charges := by
    unfold expirePass
    exact foldl_preserve
      (fun acc : PState × Bool × List String => KeyNodupL acc.1.charges) _
      (fun acc a ha => keyNodup_expireStep now acc a ha) _ _ h
  have h2 : KeyNodup (if (expirePass now s).2.1
      then persistState (expirePass now s).1
      else (expirePass now s).1) := by
    split
    · exact h1
    · exact h1
  exact foldl_preserve KeyNodup _
    (fun st a ha => keyNodup_sweepOutcome (envOf a) a ha) _ _ h2

theorem alGet_of_mem_nodup {β : Type _} {k : String} {v : β} :
    ∀ {l : List (String × β)}, (l.map Prod.fst).Nodup → (k, v) ∈ l →
      alGet k l = some v := by
  intro l
  induction l with
  | nil => intro _ hm; simp at hm
  | cons q rest ih =>
    intro hkn hm
    obtain ⟨k0, v0⟩ := q
    simp only [List.map_cons, List.nodup_cons] at hkn
    rcases List.mem_cons.mp hm with h1 | h1
    · cases h1
      unfold alGet
      rw [if_pos rfl]
    · unfold alGet
      by_cases h0 : k0 = k
      · subst h0
        exact absurd (List.mem_map.mpr ⟨(k0, v), h1, rfl⟩) hkn.1
      · rw [if_neg h0]
        exact ih hkn.2 h1

/-- Per-key effect of settling one recovered pending item: only the scanned
charge changes, and neither its status nor its id. -/
theorem applyRecoveryItem_key (now : Nat) (cid : String) (it : RecoveryItem)
    (s : PState) (k : String) (c : Charge)
    (hget : alGet k s.charges = some c) :
    ∃ c1, alGet k (applyRecoveryItem now cid it s).charges = some c1 ∧
      (c1 = c ∨ (k = cid ∧ c1.status = c.status ∧ c1.id = c.id)) := by
  unfold applyRecoveryItem
  split
  · exact ⟨c, hget, Or.inl rfl⟩
  split
  · exact ⟨c, hget, Or.inl rfl⟩
  rename_i c0 hc0
  by_cases hk : k = cid
  · subst hk
    rw [hget] at hc0
    cases hc0
    refine ⟨{ c with
        transactions := c.transactions ++
          [{ hash := it.hash, sender := it.source, amountRaw := it.amount,
             amountNano := rawToNano it.amount, timestamp := now }],
        receivedRaw := c.receivedRaw + it.amount,
        receivedNano := rawToNano (c.receivedRaw + it.amount) },
      ?_, Or.inr ⟨rfl, rfl, rfl⟩⟩
    show alGet k (alSet k _ s.charges) = _
    simp [alGet_alSet]
  · refine ⟨c, ?_, Or.inl rfl⟩
    show alGet k (alSet cid _ s.charges) = _
    rw [alGet_alSet, if_neg (fun h => hk h.symm)]
    exact hget

theorem recoveryItemsFoldl_key (now : Nat) (cid : String) :
    ∀ (items : List RecoveryItem) (s : PState) (k : String) (c : Charge),
      alGet k s.charges = some c →
      ∃ c1, alGet k ((items.foldl
          (fun st it => applyRecoveryItem now cid it st) s)).charges
          = some c1 ∧
        (c1 = c ∨ (k = cid ∧ c1.status = c.status ∧ c1.id = c.id)) := by
  intro items
  induction items with
  | nil =>
    intro s k c hget
    exact ⟨c, hget, Or.inl rfl⟩
  | cons a rest ih =>
    intro s k c hget
    obtain ⟨c1, hc1, hc1d⟩ := applyRecoveryItem_key now cid a s k c hget
    obtain ⟨c2, hc2, hc2d⟩ := ih (applyRecoveryItem now cid a s) k c1 hc1
    refine ⟨c2, hc2, ?_⟩
    rcases hc1d with h1 | ⟨hk, hst, hid⟩
    · subst h1
      exact hc2d
    · rcases hc2d with h2 | ⟨-, hst2, hid2⟩
      · subst h2
        exact Or.inr ⟨hk, hst, hid⟩
      · exact Or.inr ⟨hk, hst2.trans hst, hid2.trans hid⟩

theorem wellKeyed_applyRecoveryItem (now : Nat) (cid : String)
    (it : RecoveryItem) {s : PState} (h : WellKeyed s) :
    WellKeyed (applyRecoveryItem now cid it s) := by
  unfold applyRecoveryItem
  split
  · exact h
  split
  · exact h
  rename_i c0 hc0
  have hid0 : c0.id = cid := wellKeyedL_of_alGet h hc0
  show WellKeyedL (alSet cid _ s.charges)
  exact wellKeyedL_alSet h hid0

theorem keyNodup_applyRecoveryItem (now : Nat) (cid : String)
    (it : RecoveryItem) {s : PState} (h : KeyNodup s) :
    KeyNodup (applyRecoveryItem now cid it s) := by
  unfold applyRecoveryItem
  split
  · exact h
  split
  · exact h
  exact keyNodupL_alSet h

/-- Per-key effect of the status recomputation after recovered items: only
the scanned charge changes, to completed, partial, or (auto-sweep with a
nonzero balance) swept. Needs the well-keyed invariant so the triggered
sweep (which goes by the charge's `id` field) targets the scanned key. -/
theorem recoverFinish_key (env : RecoveryEnv) (cid : String) (s1 : PState)
    (hwk : WellKeyed s1) (k : String) (c1 : Charge)
    (hget : alGet k s1.charges = some c1) :
    ∃ c', alGet k (recoverFinish env cid s1).charges = some c' ∧
      (c' = c1 ∨ (k = cid ∧ (c'.status = ChargeStatus.completed ∨
        c'.status = ChargeStatus.part ∨
        (c'.status = ChargeStatus.swept ∧ env.sweepEnv.balance ≠ 0)))) := by
  unfold recoverFinish
  split
  · exact ⟨c1, hget, Or.inl rfl⟩
  rename_i charge hcharge
  have hid : charge.id = cid := wellKeyedL_of_alGet hwk hcharge
  split
  · unfold recoverSweep
    set s2 : PState := persistStateNow env.now
      { s1 with charges := alSet cid { charge with
          status := ChargeStatus.completed,
          completedAt := some env.now } s1.charges } with hs2
    have hs2get : ∃ cm, alGet k s2.charges = some cm ∧
        (cm = c1 ∨ (k = cid ∧ cm.status = ChargeStatus.completed)) := by
      by_cases hk : k = cid
      · subst hk
        refine ⟨{ charge with
            status := ChargeStatus.completed,
            completedAt := some env.now }, ?_, Or.inr ⟨rfl, rfl⟩⟩
        show alGet k (alSet k _ s1.charges) = _
        simp [alGet_alSet]
      · refine ⟨c1, ?_, Or.inl rfl⟩
        show alGet k (alSet cid _ s1.charges) = _
        rw [alGet_alSet, if_neg (fun h => hk h.symm)]
        exact hget
    obtain ⟨cm, hcm, hcmd⟩ := hs2get
    split
    · obtain ⟨c', hc', hc'd⟩ := sweepOutcome_step env.sweepEnv charge.id s2
        k cm hcm
      refine ⟨c', hc', ?_⟩
      rcases hc'd with h2 | ⟨hka, hst, hbal, wh, h2⟩
      · subst h2
        rcases hcmd with h1 | ⟨hk, h1⟩
        · exact Or.inl h1
        · exact Or.inr ⟨hk, Or.inl h1⟩
      · subst h2
        obtain ⟨g1, -⟩ := sweptUpd_fields env.sweepEnv cm wh
        rw [hid] at hka
        exact Or.inr ⟨hka, Or.inr (Or.inr ⟨g1, hbal⟩)⟩
    · refine ⟨cm, hcm, ?_⟩
      rcases hcmd with h1 | ⟨hk, h1⟩
      · exact Or.inl h1
      · exact Or.inr ⟨hk, Or.inl h1⟩
  · split
    · by_cases hk : k = cid
      · subst hk
        rw [hget] at hcharge
        cases hcharge
        refine ⟨{ c1 with status := ChargeStatus.part }, ?_,
          Or.inr ⟨rfl, Or.inr (Or.inl rfl)⟩⟩
        show alGet k (alSet k _ s1.charges) = _
        simp [alGet_alSet]
      · refine ⟨c1, ?_, Or.inl rfl⟩
        show alGet k (alSet cid _ s1.charges) = _
        rw [alGet_alSet, if_neg (fun h => hk h.symm)]
        exact hget
    · exact ⟨c1, hget, Or.inl rfl⟩

theorem wellKeyed_recoverFinish (env : RecoveryEnv) (cid : String)
    {s1 : PState} (h : WellKeyed s1) :
    WellKeyed (recoverFinish env cid s1) := by
  unfold recoverFinish
  split
  · exact h
  rename_i charge hcharge
  have hid : charge.id = cid := wellKeyedL_of_alGet h hcharge
  split
  · unfold recoverSweep
    have h2 : WellKeyedL (alSet cid { charge with
        status := ChargeStatus.completed,
        completedAt := some env.now } s1.charges) :=
      wellKeyedL_alSet h hid
    split
    · exact wellKeyed_sweepOutcome _ _ h2
    · exact h2
  · split
    · exact wellKeyedL_alSet h hid
    · exact h

theorem keyNodup_recoverFinish (env : RecoveryEnv) (cid : String)
    {s1 : PState} (h : KeyNodup s1) :
    KeyNodup (recoverFinish env cid s1) := by
  unfold recoverFinish
  split
  · exact h
  split
  · unfold recoverSweep
    split
    · exact keyNodup_sweepOutcome _ _ (keyNodupL_alSet h)
    · exact keyNodupL_alSet h
  · split
    · exact keyNodupL_alSet h
    · exact h

theorem recoverCharge_key (env : RecoveryEnv) (cid : String) (s : PState)
    (hwk : WellKeyed s) (k : String) (c : Charge)
    (hget : alGet k s.charges = some c) :
    ∃ c', alGet k (recoverCharge env cid s).charges = some c' ∧
      (c' = c ∨ (k = cid ∧ (c'.status = c.status ∨
        c'.status = ChargeStatus.completed ∨
        c'.status = ChargeStatus.part ∨
        (c'.status = ChargeStatus.swept ∧ env.sweepEnv.balance ≠ 0)))) := by
  unfold recoverCharge
  split
  · exact ⟨c, hget, Or.inl rfl⟩
  obtain ⟨c1, hc1, hc1d⟩ := recoveryItemsFoldl_key env.now cid env.items s
    k c hget
  have hwk1 : WellKeyed (env.items.foldl
      (fun st it => applyRecoveryItem env.now cid it st) s) :=
    foldl_preserve WellKeyed _
      (fun st a ha => wellKeyed_applyRecoveryItem env.now cid a ha) _ _ hwk
  obtain ⟨c', hc', hc'd⟩ := recoverFinish_key env cid _ hwk1 k c1 hc1
  refine ⟨c', hc', ?_⟩
  rcases hc'd with h2 | ⟨hk, h2⟩
  · subst h2
    rcases hc1d with h1 | ⟨hk, hst, -⟩
    · exact Or.inl h1
    · exact Or.inr ⟨hk, Or.inl hst⟩
  · exact Or.inr ⟨hk, Or.inr h2⟩

theorem wellKeyed_recoverCharge (env : RecoveryEnv) (cid : String)
    {s : PState} (h : WellKeyed s) : WellKeyed (recoverCharge env cid s) := by
  unfold recoverCharge
  split
  · exact h
  exact wellKeyed_recoverFinish env cid
    (foldl_preserve WellKeyed _
      (fun st a ha => wellKeyed_applyRecoveryItem env.now cid a ha) _ _ h)

theorem keyNodup_recoverCharge (env : RecoveryEnv) (cid : String)
    {s : PState} (h : KeyNodup s) : KeyNodup (recoverCharge env cid s) := by
  unfold recoverCharge
  split
  · exact h
  exact keyNodup_recoverFinish env cid
    (foldl_preserve KeyNodup _
      (fun st a ha => keyNodup_applyRecoveryItem env.now cid a ha) _ _ h)

theorem stepStatusOk_trans {z : Bool} {a b c : ChargeStatus}
    (h1 : stepStatusOk z a b = true) (h2 : stepStatusOk z b c = true) :
    stepStatusOk z a c = true := by
  revert h1 h2
  cases z <;> cases a <;> cases b <;> cases c <;> decide

theorem recoverFoldl_key (envOf : String → RecoveryEnv) :
    ∀ (ids : List String) (st : PState), WellKeyed st → ids.Nodup →
      (∀ id ∈ ids, ∃ cc, alGet id st.charges = some cc ∧
        (cc.status = ChargeStatus.pending ∨ cc.status = ChargeStatus.part)) →
      ∀ k c, alGet k st.charges = some c →
      ∃ c', alGet k ((ids.foldl
          (fun st id => recoverCharge (envOf id) id st) st)).charges
          = some c' ∧
        stepStatusOk ((envOf k).sweepEnv.balance != 0) c.status c'.status
          = true := by
  intro ids
  induction ids with
  | nil =>
    intro st _ _ _ k c hget
    exact ⟨c, hget, stepStatusOk_refl _ _⟩
  | cons a rest ih =>
    intro st hwk hnd hpre k c hget
    have hnd1 : a ∉ rest := (List.nodup_cons.mp hnd).1
    have hnd2 : rest.Nodup := (List.nodup_cons.mp hnd).2
    have hwk1 : WellKeyed (recoverCharge (envOf a) a st) :=
      wellKeyed_recoverCharge (envOf a) a hwk
    have hpre1 : ∀ id ∈ rest, ∃ cc,
        alGet id (recoverCharge (envOf a) a st).charges = some cc ∧
        (cc.status = ChargeStatus.pending ∨
          cc.status = ChargeStatus.part) := by
      intro id hid
      obtain ⟨cc, hcc, hccact⟩ := hpre id (List.mem_cons_of_mem a hid)
      obtain ⟨cc', hcc', hcc'd⟩ := recoverCharge_key (envOf a) a st hwk
        id cc hcc
      rcases hcc'd with h1 | ⟨h1, -⟩
      · exact ⟨cc', hcc', h1 ▸ hccact⟩
      · exact absurd (h1 ▸ hid) hnd1
    obtain ⟨c1, hc1, hc1d⟩ := recoverCharge_key (envOf a) a st hwk k c hget
    obtain ⟨c', hc', hc'ok⟩ := ih (recoverCharge (envOf a) a st) hwk1 hnd2
      hpre1 k c1 hc1
    refine ⟨c', hc', ?_⟩
    refine stepStatusOk_trans ?_ hc'ok
    rcases hc1d with h1 | ⟨hk, h1⟩
    · rw [h1]
      exact stepStatusOk_refl _ _
    · subst hk
      obtain ⟨cc, hcc, hccact⟩ := hpre k (List.mem_cons_self _ _)
      rw [hget] at hcc
      cases hcc
      rcases h1 with h2 | h2 | h2 | ⟨h2, hbal⟩
      · rw [h2]
        exact stepStatusOk_refl _ _
      · rw [h2]
        exact stepStatusOk_active_completed hccact
      · rw [h2]
        exact stepStatusOk_active_part hccact
      · rw [h2]
        refine stepStatusOk_swept ?_ (by simpa using hbal)
        rcases hccact with h3 | h3 <;> rw [h3] <;> decide

/-- Per-key status effect of the startup recovery scan. -/
theorem checkMissed_step (envOf : String → RecoveryEnv) (s : PState)
    (hwk : WellKeyed s) (hkn : KeyNodup s) (k : String) (c : Charge)
    (hget : alGet k s.charges = some c) :
    ∃ c', alGet k (checkMissedPayments envOf s).charges = some c' ∧
      stepStatusOk ((envOf k).sweepEnv.balance != 0) c.status c'.status
        = true := by
  unfold checkMissedPayments
  refine recoverFoldl_key envOf _ s hwk ?_ ?_ k c hget
  · refine List.Nodup.sublist ?_ hkn
    exact List.Sublist.map Prod.fst (List.filter_sublist s.charges)
  · intro id hid
    rcases List.mem_map.mp hid with ⟨p, hpf, hpid⟩
    rcases List.mem_filter.mp hpf with ⟨hpmem, hpdec⟩
    have hact : p.2.status = ChargeStatus.pending ∨
        p.2.status = ChargeStatus.part := of_decide_eq_true hpdec
    refine ⟨p.2, ?_, hact⟩
    rw [← hpid]
    exact alGet_of_mem_nodup hkn (by rw [show (p.1, p.2) = p from rfl]; exact hpmem)

theorem wellKeyed_checkMissed (envOf : String → RecoveryEnv) {s : PState}
    (h : WellKeyed s) : WellKeyed (checkMissedPayments envOf s) :=
  foldl_preserve WellKeyed _
    (fun st a ha => wellKeyed_recoverCharge (envOf a) a ha) _ _ h

theorem keyNodup_checkMissed (envOf : String → RecoveryEnv) {s : PState}
    (h : KeyNodup s) : KeyNodup (checkMissedPayments envOf s) :=
  foldl_preserve KeyNodup _
    (fun st a ha => keyNodup_recoverCharge (envOf a) a ha) _ _ h

/-- The master per-operation lemma for C1: under a processing operation,
every charge survives and its status moves by one permitted step, with the
balance side condition keyed by the charge's map key. -/
theorem processing_step_key (op : Op) (hop : op.isProcessing = true)
    (s : PState) (hwk : WellKeyed s) (hkn : KeyNodup s) (k : String)
    (c : Charge) (hget : alGet k s.charges = some c) :
    ∃ c', alGet k (step op s).charges = some c' ∧
      stepStatusOk (opBalNz op k) c.status c'.status = true := by
  cases op with
  | payment env p => exact handlePayment_step env p s k c hget
  | sweep env id0 =>
    obtain ⟨c', hc', hc'd⟩ := sweepOutcome_step env id0 s k c hget
    refine ⟨c', hc', ?_⟩
    rcases hc'd with h1 | ⟨-, hst, hbal, wh, h1⟩
    · rw [h1]
      exact stepStatusOk_refl _ _
    · subst h1
      obtain ⟨g1, -⟩ := sweptUpd_fields env c wh
      rw [g1]
      refine stepStatusOk_swept hst ?_
      show (env.balance != 0) = true
      simpa using hbal
  | expiry now envOf => exact checkExpired_step now envOf s k c hget
  | recovery envOf => exact checkMissed_step envOf s hwk hkn k c hget
  | create env opts => simp [Op.isProcessing] at hop
  | deleteOp id => simp [Op.isProcessing] at hop
  | cleanup => simp [Op.isProcessing] at hop

theorem processing_step_invariants (op : Op) (hop : op.isProcessing = true)
    {s : PState} (hwk : WellKeyed s) (hkn : KeyNodup s) :
    WellKeyed (step op s) ∧ KeyNodup (step op s) := by
  cases op with
  | payment env p =>
    exact ⟨wellKeyed_handlePayment env p hwk, keyNodup_handlePayment env p hkn⟩
  | sweep env id0 =>
    exact ⟨wellKeyed_sweepOutcome env id0 hwk, keyNodup_sweepOutcome env id0 hkn⟩
  | expiry now envOf =>
    exact ⟨wellKeyed_checkExpired now envOf hwk, keyNodup_checkExpired now envOf hkn⟩
  | recovery envOf =>
    exact ⟨wellKeyed_checkMissed envOf hwk, keyNodup_checkMissed envOf hkn⟩
  | create env opts => simp [Op.isProcessing] at hop
  | deleteOp id => simp [Op.isProcessing] at hop
  | cleanup => simp [Op.isProcessing] at hop

theorem run_statusLe :
    ∀ (ops : List Op) (s : PState), WellKeyed s → KeyNodup s →
      (∀ op ∈ ops, op.isProcessing = true) →
      ∀ id c c', alGet id s.charges = some c →
        alGet id (run ops s).charges = some c' →
        statusLe c.status c'.status = true := by
  intro ops
  induction ops with
  | nil =>
    intro s _ _ _ id c c' hget hget'
    rw [show run [] s = s from rfl, hget] at hget'
    cases hget'
    exact statusLe_refl _
  | cons op rest ih =>
    intro s hwk hkn hops id c c' hget hget'
    have hop : op.isProcessing = true := hops op (List.mem_cons_self op rest)
    obtain ⟨cm, hcm, hcmok⟩ := processing_step_key op hop s hwk hkn id c hget
    obtain ⟨hwk', hkn'⟩ := processing_step_invariants op hop hwk hkn
    have hrest : ∀ o ∈ rest, o.isProcessing = true :=
      fun o ho => hops o (List.mem_cons_of_mem op ho)
    have h2 : statusLe cm.status c'.status = true :=
      ih (step op s) hwk' hkn' hrest id cm c' hcm hget'
    exact statusLe_trans (stepStatusOk_le hcmok) h2

/-- C1 (amended): over any sequence of processing operations (payment
application, expiry check, sweep, recovery) on a well-formed store, every
charge's status only moves forward along the reachability order of the
§4.2 state machine — never backward, and with no exit from
completed/expired/swept other than to swept — and each single operation
moves a status by one permitted step, where any jump to `swept` (including
`sweepCharge` taking a pending or partial charge directly to `swept`, which
the enumerated §4.2 edge list does not contain) happens only when the
reconciled on-chain balance for that charge is nonzero. -/
theorem c1_amended_forward_only (ops : List Op) (s : PState)
    (hwk : WellKeyed s) (hkn : KeyNodup s)
    (hops : ∀ op ∈ ops, op.isProcessing = true) :
    (∀ id c c', alGet id s.charges = some c →
      alGet id (run ops s).charges = some c' →
      statusLe c.status c'.status = true) ∧
    (∀ op, op.isProcessing = true →
      ∀ id c c', alGet id s.charges = some c →
        alGet id (step op s).charges = some c' →
        stepStatusOk (opBalNz op id) c.status c'.status = true) := by
  constructor
  · exact run_statusLe ops s hwk hkn hops
  · intro op hop id c c' hget hget'
    obtain ⟨cm, hcm, hcmok⟩ := processing_step_key op hop s hwk hkn id c hget
    rw [hcm] at hget'
    cases hget'
    exact hcmok

theorem alGet_none_not_mem {β : Type _} {k : String} {v : β} :
    ∀ {l : List (String × β)}, alGet k l = none → (k, v) ∉ l := by
  intro l
  induction l with
  | nil => intro _ hm; simp at hm
  | cons q rest ih =>
    intro h hm
    obtain ⟨k0, v0⟩ := q
    unfold alGet at h
    by_cases h0 : k0 = k
    · rw [if_pos h0] at h
      cases h
    · rw [if_neg h0] at h
      rcases List.mem_cons.mp hm with h1 | h1
      · cases h1
        exact h0 rfl
      · exact ih h h1

theorem alDel_sublist {β : Type _} (k : String) :
    ∀ (l : List (String × β)), (alDel k l).Sublist l := by
  intro l
  induction l with
  | nil => simp [alDel]
  | cons q rest ih =>
    obtain ⟨k0, v0⟩ := q
    unfold alDel
    by_cases h0 : k0 = k
    · rw [if_pos h0]
      exact ih.cons _
    · rw [if_neg h0]
      exact ih.cons₂ _

theorem mem_alDel_ne {β : Type _} {p : String × β} {k : String} :
    ∀ {l : List (String × β)}, p ∈ alDel k l → p.1 ≠ k := by
  intro l
  induction l with
  | nil => intro h; simp [alDel] at h
  | cons q rest ih =>
    intro h
    obtain ⟨k0, v0⟩ := q
    unfold alDel at h
    by_cases h0 : k0 = k
    · rw [if_pos h0] at h
      exact ih h
    · rw [if_neg h0] at h
      rcases List.mem_cons.mp h with h1 | h1
      · rw [h1]
        exact h0
      · exact ih h1

theorem alSet_keysNodup {β : Type _} {k : String} {v : β}
    {l : List (String × β)} (h : (l.map Prod.fst).Nodup) :
    ((alSet k v l).map Prod.fst).Nodup := by
  induction l with
  | nil => simp [alSet]
  | cons p rest ih =>
    obtain ⟨k0, v0⟩ := p
    simp only [List.map_cons, List.nodup_cons] at h
    unfold alSet
    by_cases h0 : k0 = k
    · rw [if_pos h0]
      simp only [List.map_cons, List.nodup_cons]
      exact ⟨h0 ▸ h.1, h.2⟩
    · rw [if_neg h0]
      simp only [List.map_cons, List.nodup_cons]
      refine ⟨?_, ih h.2⟩
      intro hmem
      rcases keys_mem_alSet hmem with h1 | h1
      · exact h0 h1
      · exact h.1 h1

/-- Updating the charge stored at an existing key, keeping its identity
fields and either its status or at least a non-swept one, preserves the C3
invariant (the address index is untouched). -/
theorem addrInv_update {s : PState} {cid : String} {c c' : Charge}
    (h : AddrInv s) (hget : alGet cid s.charges = some c)
    {s' : PState} (hs' : s'.charges = alSet cid c' s.charges ∧
      s'.addressToChargeId = s.addressToChargeId ∧
      s'.nextAccountIndex = s.nextAccountIndex)
    (hid : c'.id = c.id) (haddr : c'.address = c.address)
    (hacc : c'.accountIndex = c.accountIndex)
    (hst : c'.status ≠ ChargeStatus.swept ∨ c'.status = c.status) :
    AddrInv s' := by
  obtain ⟨h1, h2, h3, h4, h5⟩ := h
  obtain ⟨hc1, hc2, hc3⟩ := hs'
  have hcmem : (cid, c) ∈ s.charges := alGet_mem hget
  have hcid : c.id = cid := (h1 (cid, c) hcmem).1
  refine ⟨?_, ?_, ?_, ?_, ?_⟩
  · intro p hp
    rw [hc1] at hp
    rw [hc3]
    rcases mem_alSet hp with h6 | h6
    · subst h6
      obtain ⟨-, hb, hcnt⟩ := h1 (cid, c) hcmem
      exact ⟨hid.trans hcid, by rw [haddr, hacc]; exact hb, by rw [hacc]; exact hcnt⟩
    · exact h1 p h6
  · intro p hp q hq hne
    rw [hc1] at hp hq
    rcases mem_alSet hp with h6 | h6 <;> rcases mem_alSet hq with h7 | h7
    · subst h6; subst h7
      exact absurd rfl hne
    · subst h6
      simp only [hacc]
      exact h2 (cid, c) hcmem q h7 hne
    · subst h7
      simp only [hacc]
      exact h2 p h6 (cid, c) hcmem hne
    · exact h2 p h6 q h7 hne
  · rw [hc1]
    exact keyNodupL_alSet h3
  · rw [hc2]
    exact h4
  · intro q hq
    rw [hc2] at hq
    obtain ⟨c2, hc2g, hc2a, hc2s⟩ := h5 q hq
    by_cases hq2 : q.2 = cid
    · refine ⟨c', ?_, ?_, ?_⟩
      · rw [hc1, hq2, alGet_alSet, if_pos rfl]
      · rw [hq2] at hc2g
        rw [hget] at hc2g
        cases hc2g
        rw [haddr]
        exact hc2a
      · rcases hst with h6 | h6
        · exact h6
        · rw [hq2] at hc2g
          rw [hget] at hc2g
          cases hc2g
          rw [h6]
          exact hc2s
    · refine ⟨c2, ?_, hc2a, hc2s⟩
      rw [hc1, alGet_alSet, if_neg (fun h => hq2 h.symm)]
      exact hc2g

/-- Updating the charge stored at an existing key while releasing that
charge's address from the index (the sweep and empty-expiry paths)
preserves the C3 invariant; no constraint on the new status is needed,
since the only index entry that could point at the key is the released
one. -/
theorem addrInv_update_release {s : PState} {cid : String} {c c' : Charge}
    (h : AddrInv s) (hget : alGet cid s.charges = some c)
    {s' : PState} (hs' : s'.charges = alSet cid c' s.charges ∧
      s'.addressToChargeId = alDel c.address s.addressToChargeId ∧
      s'.nextAccountIndex = s.nextAccountIndex)
    (hid : c'.id = c.id) (haddr : c'.address = c.address)
    (hacc : c'.accountIndex = c.accountIndex) :
    AddrInv s' := by
  obtain ⟨h1, h2, h3, h4, h5⟩ := h
  obtain ⟨hc1, hc2, hc3⟩ := hs'
  have hcmem : (cid, c) ∈ s.charges := alGet_mem hget
  have hcid : c.id = cid := (h1 (cid, c) hcmem).1
  refine ⟨?_, ?_, ?_, ?_, ?_⟩
  · intro p hp
    rw [hc1] at hp
    rw [hc3]
    rcases mem_alSet hp with h6 | h6
    · subst h6
      obtain ⟨-, hb, hcnt⟩ := h1 (cid, c) hcmem
      exact ⟨hid.trans hcid, by rw [haddr, hacc]; exact hb, by rw [hacc]; exact hcnt⟩
    · exact h1 p h6
  · intro p hp q hq hne
    rw [hc1] at hp hq
    rcases mem_alSet hp with h6 | h6 <;> rcases mem_alSet hq with h7 | h7
    · subst h6; subst h7
      exact absurd rfl hne
    · subst h6
      simp only [hacc]
      exact h2 (cid, c) hcmem q h7 hne
    · subst h7
      simp only [hacc]
      exact h2 p h6 (cid, c) hcmem hne
    · exact h2 p h6 q h7 hne
  · rw [hc1]
    exact keyNodupL_alSet h3
  · rw [hc2]
    exact ((alDel_sublist c.address s.addressToChargeId).map Prod.fst).nodup h4
  · intro q hq
    rw [hc2] at hq
    have hqne : q.1 ≠ c.address := mem_alDel_ne hq
    have hqmem : q ∈ s.addressToChargeId := mem_alDel hq
    obtain ⟨c2, hc2g, hc2a, hc2s⟩ := h5 q hqmem
    by_cases hq2 : q.2 = cid
    · rw [hq2, hget] at hc2g
      cases hc2g
      exact absurd hc2a.symm hqne
    · refine ⟨c2, ?_, hc2a, hc2s⟩
      rw [hc1, alGet_alSet, if_neg (fun h => hq2 h.symm)]
      exact hc2g

theorem addrInv_sweepOutcome (env : SweepEnv) (cid : String) {s : PState}
    (h : AddrInv s) : AddrInv (sweepOutcome env cid s) := by
  rcases sweepOutcome_cases env cid s with heq | ⟨c, wh, hget, -, -, heq⟩
  · rw [heq]; exact h
  · rw [heq]
    obtain ⟨g1, g2, g3, g4, g5, g6, g7, g8, g9, -⟩ := sweptUpd_fields env c wh
    exact addrInv_update_release h hget ⟨rfl, rfl, rfl⟩ g6 g7 g8

theorem addrInv_createCharge (env : CreateEnv) (opts : CreateChargeOptions)
    {s : PState} (h : AddrInv s) (hfresh : alGet env.id s.charges = none) :
    AddrInv (createCharge env opts s).1 := by
  obtain ⟨h1, h2, h3, h4, h5⟩ := h
  refine ⟨?_, ?_, ?_, ?_, ?_⟩
  · intro p hp
    rcases mem_alSet hp with h6 | h6
    · subst h6
      exact ⟨rfl, rfl, Nat.lt_succ_self _⟩
    · obtain ⟨ha, hb, hc⟩ := h1 p h6
      exact ⟨ha, hb, Nat.lt_succ_of_lt hc⟩
  · intro p hp q hq hne
    rcases mem_alSet hp with h6 | h6 <;> rcases mem_alSet hq with h7 | h7
    · subst h6; subst h7
      exact absurd rfl hne
    · subst h6
      exact fun he => absurd he.symm (Nat.ne_of_lt (h1 q h7).2.2)
    · subst h7
      exact Nat.ne_of_lt (h1 p h6).2.2
    · exact h2 p h6 q h7 hne
  · exact keyNodupL_alSet h3
  · exact alSet_keysNodup h4
  · intro q hq
    rcases mem_alSet hq with h6 | h6
    · subst h6
      refine ⟨(createCharge env opts s).2, ?_, ?_, ?_⟩
      · show alGet env.id
          (alSet env.id (createCharge env opts s).2 s.charges) =
          some (createCharge env opts s).2
        rw [alGet_alSet, if_pos rfl]
      · rfl
      · intro hcon
        exact ChargeStatus.noConfusion hcon
    · obtain ⟨c2, hc2, hc2a, hc2s⟩ := h5 q h6
      have hne : q.2 ≠ env.id := by
        intro he
        rw [he, hfresh] at hc2
        cases hc2
      refine ⟨c2, ?_, hc2a, hc2s⟩
      show alGet q.2 (alSet env.id (createCharge env opts s).2 s.charges) =
        some c2
      rw [alGet_alSet, if_neg (fun h => hne h.symm)]
      exact hc2

theorem addrInv_handlePayment (env : PaymentEnv) (p : PaymentEvent)
    {s : PState} (h : AddrInv s) : AddrInv (handlePayment env p s) := by
  unfold handlePayment
  split
  · exact h
  rename_i cid hcid
  split
  · exact h
  split
  · exact h
  rename_i c0 hc0
  split
  · exact h
  dsimp only
  split
  · split
    · apply addrInv_sweepOutcome
      refine addrInv_update h hc0 ⟨rfl, rfl, rfl⟩ rfl rfl rfl (Or.inl ?_)
      intro hcon
      exact ChargeStatus.noConfusion hcon
    · refine addrInv_update h hc0 ⟨rfl, rfl, rfl⟩ rfl rfl rfl (Or.inl ?_)
      intro hcon
      exact ChargeStatus.noConfusion hcon
  · refine addrInv_update h hc0 ⟨rfl, rfl, rfl⟩ rfl rfl rfl (Or.inl ?_)
    intro hcon
    exact ChargeStatus.noConfusion hcon

theorem addrInv_expireStep (now : Nat) (acc : PState × Bool × List String)
    (id : String) (h : AddrInv acc.1) : AddrInv (expireStep now acc id).1 := by
  unfold expireStep
  split
  · exact h
  rename_i c0 hc0
  split
  · split
    · refine addrInv_update h hc0 ⟨rfl, rfl, rfl⟩ rfl rfl rfl (Or.inl ?_)
      intro hcon
      exact ChargeStatus.noConfusion hcon
    · exact addrInv_update_release h hc0 ⟨rfl, rfl, rfl⟩ rfl rfl rfl
  · exact h

theorem addrInv_checkExpired (now : Nat) (envOf : String → SweepEnv)
    {s : PState} (h : AddrInv s) :
    AddrInv (checkExpiredCharges now envOf s) := by
  unfold checkExpiredCharges
  have h1 : AddrInv (expirePass now s).1 := by
    unfold expirePass
    exact foldl_preserve
      (fun acc : PState × Bool × List String => AddrInv acc.1) _
      (fun acc a ha => addrInv_expireStep now acc a ha) _ _ h
  have h2 : AddrInv (if (expirePass now s).2.1
      then persistState (expirePass now s).1
      else (expirePass now s).1) := by
    split
    · exact h1
    · exact h1
  exact foldl_preserve AddrInv _
    (fun st a ha => addrInv_sweepOutcome (envOf a) a ha) _ _ h2

theorem addrInv_applyRecoveryItem (now : Nat) (cid : String)
    (it : RecoveryItem) {s : PState} (h : AddrInv s) :
    AddrInv (applyRecoveryItem now cid it s) := by
  unfold applyRecoveryItem
  split
  · exact h
  split
  · exact h
  rename_i c0 hc0
  exact addrInv_update h hc0 ⟨rfl, rfl, rfl⟩ rfl rfl rfl (Or.inr rfl)

theorem addrInv_recoverFinish (env : RecoveryEnv) (cid : String)
    {s1 : PState} (h : AddrInv s1) : AddrInv (recoverFinish env cid s1) := by
  unfold recoverFinish
  split
  · exact h
  rename_i charge hcharge
  split
  · unfold recoverSweep
    split
    · apply addrInv_sweepOutcome
      refine addrInv_update h hcharge ⟨rfl, rfl, rfl⟩ rfl rfl rfl (Or.inl ?_)
      intro hcon
      exact ChargeStatus.noConfusion hcon
    · refine addrInv_update h hcharge ⟨rfl, rfl, rfl⟩ rfl rfl rfl (Or.inl ?_)
      intro hcon
      exact ChargeStatus.noConfusion hcon
  · split
    · refine addrInv_update h hcharge ⟨rfl, rfl, rfl⟩ rfl rfl rfl (Or.inl ?_)
      intro hcon
      exact ChargeStatus.noConfusion hcon
    · exact h

theorem addrInv_recoverCharge (env : RecoveryEnv) (cid : String)
    {s : PState} (h : AddrInv s) : AddrInv (recoverCharge env cid s) := by
  unfold recoverCharge
  split
  · exact h
  exact addrInv_recoverFinish env cid
    (foldl_preserve AddrInv _
      (fun st a ha => addrInv_applyRecoveryItem env.now cid a ha) _ _ h)

theorem addrInv_checkMissed (envOf : String → RecoveryEnv) {s : PState}
    (h : AddrInv s) : AddrInv (checkMissedPayments envOf s) :=
  foldl_preserve AddrInv _
    (fun st a ha => addrInv_recoverCharge (envOf a) a ha) _ _ h

theorem addrInv_deleteState {s : PState} {cid : String} {c : Charge}
    (h : AddrInv s) (hget : alGet cid s.charges = some c) :
    AddrInv (persistState
      { s with
        addressToChargeId := alDel c.address s.addressToChargeId,
        charges := alDel cid s.charges,
        monitored := s.monitored.filter (fun a => a ≠ c.address) }) := by
  obtain ⟨h1, h2, h3, h4, h5⟩ := h
  refine ⟨?_, ?_, ?_, ?_, ?_⟩
  · intro p hp
    exact h1 p (mem_alDel hp)
  · intro p hp q hq
    exact h2 p (mem_alDel hp) q (mem_alDel hq)
  · exact ((alDel_sublist cid s.charges).map Prod.fst).nodup h3
  · exact ((alDel_sublist c.address s.addressToChargeId).map Prod.fst).nodup h4
  · intro q hq
    have hqne : q.1 ≠ c.address := mem_alDel_ne hq
    obtain ⟨c2, hc2, hc2a, hc2s⟩ := h5 q (mem_alDel hq)
    by_cases hq2 : q.2 = cid
    · rw [hq2, hget] at hc2
      cases hc2
      exact absurd hc2a.symm hqne
    · refine ⟨c2, ?_, hc2a, hc2s⟩
      show alGet q.2 (alDel cid s.charges) = _
      rw [alGet_alDel, if_neg (fun h => hq2 h.symm)]
      exact hc2

theorem addrInv_deleteOp (id : String) {s : PState} (h : AddrInv s) :
    AddrInv (step (Op.deleteOp id) s) := by
  show AddrInv (match deleteCharge id s with
    | Except.ok (s', _) => s'
    | Except.error _ => s)
  match hd : deleteCharge id s with
  | Except.error e => exact h
  | Except.ok (s', b) =>
    unfold deleteCharge at hd
    split at hd
    · simp only [Except.ok.injEq, Prod.mk.injEq] at hd
      rw [← hd.1]
      exact h
    rename_i c hc
    split at hd
    · exact absurd hd (by simp)
    · simp only [Except.ok.injEq, Prod.mk.injEq] at hd
      rw [← hd.1]
      exact addrInv_deleteState h hc

theorem addrInv_cleanup {s : PState} (h : AddrInv s) :
    AddrInv (step Op.cleanup s) := by
  show AddrInv (cleanupSweptCharges s).1
  obtain ⟨h1, h2, h3, h4, h5⟩ := h
  unfold cleanupSweptCharges
  dsimp only
  have hmain : AddrInv
      { s with
        charges := s.charges.filter
          (fun p => ¬(p.2.status = ChargeStatus.swept)) } := by
    refine ⟨?_, ?_, ?_, ?_, ?_⟩
    · intro p hp
      exact h1 p (List.mem_filter.mp hp).1
    · intro p hp q hq
      exact h2 p (List.mem_filter.mp hp).1 q (List.mem_filter.mp hq).1
    · exact ((List.filter_sublist s.charges).map Prod.fst).nodup h3
    · exact h4
    · intro q hq
      obtain ⟨c2, hc2, hc2a, hc2s⟩ := h5 q hq
      refine ⟨c2, ?_, hc2a, hc2s⟩
      show alGet q.2 (s.charges.filter _) = _
      refine alGet_of_mem_nodup
        (((List.filter_sublist s.charges).map Prod.fst).nodup h3) ?_
      refine List.mem_filter.mpr ⟨alGet_mem hc2, ?_⟩
      simp [hc2s]
  split
  · exact hmain
  · exact hmain

theorem addrInv_step (op : Op) {s : PState} (h : AddrInv s)
    (hf : OpFresh op s) : AddrInv (step op s) := by
  cases op with
  | create env opts => exact addrInv_createCharge env opts h hf
  | payment env p => exact addrInv_handlePayment env p h
  | sweep env id => exact addrInv_sweepOutcome env id h
  | expiry now envOf => exact addrInv_checkExpired now envOf h
  | recovery envOf => exact addrInv_checkMissed envOf h
  | deleteOp id => exact addrInv_deleteOp id h
  | cleanup => exact addrInv_cleanup h

theorem addrInv_run :
    ∀ (ops : List Op) (s : PState), AddrInv s → FreshRun ops s →
      AddrInv (run ops s) := by
  intro ops
  induction ops with
  | nil =>
    intro s h _
    exact h
  | cons op rest ih =>
    intro s h hfr
    exact ih (step op s) (addrInv_step op h hfr.1) hfr.2

theorem sweptReleased_of_addrInv {s : PState} (h : AddrInv s) :
    SweptReleased s := by
  intro id c hget hsw
  match hidx : alGet c.address s.addressToChargeId with
  | none => rfl
  | some cid =>
    exfalso
    obtain ⟨h1, h2, h3, h4, h5⟩ := h
    obtain ⟨c2, hc2, hc2a, hc2s⟩ := h5 (c.address, cid) (alGet_mem hidx)
    by_cases hc : cid = id
    · subst hc
      rw [hget] at hc2
      cases hc2
      exact hc2s hsw
    · have hm1 := alGet_mem hget
      have hm2 := alGet_mem hc2
      have ha1 := (h1 (id, c) hm1).2.1
      have ha2 := (h1 (cid, c2) hm2).2.1
      have hacc : c2.accountIndex = c.accountIndex := by
        refine deriveAccount_injective ?_
        rw [← ha2, ← ha1, hc2a]
      exact h2 (cid, c2) hm2 (id, c) hm1 hc hacc

theorem addrInv_init (cfg : ProcessorConfig) :
    AddrInv (initProcessor cfg none) := by
  have hc : (initProcessor cfg none).charges = [] := rfl
  have ha : (initProcessor cfg none).addressToChargeId = [] := rfl
  refine ⟨?_, ?_, ?_, ?_, ?_⟩
  · intro p hp
    rw [hc] at hp
    cases hp
  · intro p hp
    rw [hc] at hp
    cases hp
  · show ((initProcessor cfg none).charges.map Prod.fst).Nodup
    rw [hc]
    exact List.nodup_nil
  · rw [ha]
    exact List.nodup_nil
  · intro q hq
    rw [ha] at hq
    cases hq

/-- C3 (amended): at every state reached by processor operations from a
state satisfying the address-index invariant (in particular from a fresh,
snapshot-free construction, which satisfies it), provided each
`createCharge` call receives a fresh charge id, the address index maps
each address to at most one charge (its keys are duplicate-free, part of
`AddrInv`) and no swept charge's address remains in the index
(`SweptReleased`): the mapping is released at sweep while the charge
record is retained. The corrected part is the starting point: a state
loaded from a snapshot holding a swept charge does **not** satisfy the
invariant (see the counterexample), because the constructor re-indexes
every persisted charge. -/
theorem c3_amended_swept_released (cfg : ProcessorConfig) (ops : List Op)
    (s : PState) (hs : AddrInv s) (hfr : FreshRun ops s) :
    AddrInv (initProcessor cfg none) ∧
    AddrInv (run ops s) ∧ SweptReleased (run ops s) :=
  ⟨addrInv_init cfg, addrInv_run ops s hs hfr,
    sweptReleased_of_addrInv (addrInv_run ops s hs hfr)⟩

theorem c3_amended_swept_released_witness :
    AddrInv c1statePending ∧ FreshRun c3ops c1statePending ∧
    (AddrInv (initProcessor { startingIndex := 1 } none) ∧
     AddrInv (run c3ops c1statePending) ∧
     SweptReleased (run c3ops c1statePending)) :=
  ⟨by decide, by decide,
   c3_amended_swept_released { startingIndex := 1 } c3ops c1statePending
     (by decide) (by decide)⟩

theorem c1_amended_forward_only_witness :
    (∀ id c c', alGet id c1statePending.charges = some c →
      alGet id (run c1ops c1statePending).charges = some c' →
      statusLe c.status c'.status = true) ∧
    (∀ op, op.isProcessing = true →
      ∀ id c c', alGet id c1statePending.charges = some c →
        alGet id (step op c1statePending).charges = some c' →
        stepStatusOk (opBalNz op id) c.status c'.status = true) :=
  c1_amended_forward_only c1ops c1statePending (by decide) (by decide)
    (by
      intro op hop
      rcases List.mem_singleton.mp hop with rfl
      rfl)

end BerryPay
